import Mathlib

/-! RollTree: the dice-formula resolution engine of `src/module/rolls/rolltree.js`.

A shallow embedding of `RollTree.buildRoll`, `RollTree.populate` and
`RollTree.displayUI`, followed by the properties proved about them.

JavaScript strings are lists of characters (well-formed strings; the patterns
searched for are ASCII, so searching by character and by UTF-16 code unit
agree).  Objects owned by the tree are records; `null` is `none`.  The
collaborators whose code lives in other files (`RollNode`, `RollDialog`,
`game.settings`, `game.i18n`) and the property access of the engine on
`allContexts` are fields of `Host`, so every theorem holds for all of their
possible behaviours.
-/

namespace RollTree

/-! ## Strings -/

/-- A JavaScript string, as the list of its characters. -/
abbrev JsString := List Char

/-- The character class `[a-zA-Z.0-9_\-]` of the variable pattern. -/
def isVarChar (c : Char) : Bool :=
  c.isAlpha || c.isDigit || c == '.' || c == '_' || c == '-'

/-- All matches of `/@([a-zA-Z.0-9_\-]+)/g`, left to right.  The first argument
counts the characters still covered by the previous match: a match starts at
an uncovered `@` that is followed by at least one class character, and it is
greedy, so it takes the whole run of class characters. -/
def matchVariablesFrom : Nat → JsString → List JsString
  | _, [] => []
  | skip + 1, _ :: cs => matchVariablesFrom skip cs
  | 0, c :: cs =>
    if c = '@' ∧ cs.takeWhile isVarChar ≠ [] then
      ('@' :: cs.takeWhile isVarChar) ::
        matchVariablesFrom (cs.takeWhile isVarChar).length cs
    else matchVariablesFrom 0 cs

/-- Insertion into a JavaScript `Set` built from a list: an element already
present is ignored, so iteration follows the order of first appearance. -/
def setOf : List JsString → List JsString
  | [] => []
  | x :: xs => x :: (setOf xs).filter (fun y => y ≠ x)

/-- `new Set(formula.match(/@([a-zA-Z.0-9_\-]+)/g))`, in iteration order. -/
def variableMatches (formula : JsString) : List JsString :=
  setOf (matchVariablesFrom 0 formula)

/-- `s.replaceAll(pat, rep)` for a string pattern and a replacement without
`$`: every occurrence found scanning left to right, an occurrence never
overlapping the one before it.  The first argument counts the characters
still covered by the occurrence just replaced. -/
def replaceAllFrom (pat rep : JsString) : Nat → JsString → JsString
  | 0, [] => if pat = [] then rep else []
  | _ + 1, [] => []
  | skip + 1, _ :: cs => replaceAllFrom pat rep skip cs
  | 0, c :: cs =>
    if pat = [] then rep ++ c :: replaceAllFrom pat rep 0 cs
    else if pat <+: c :: cs then rep ++ replaceAllFrom pat rep (pat.length - 1) cs
    else c :: replaceAllFrom pat rep 0 cs

/-- `s.replaceAll(pat, rep)`. -/
def replaceAll (pat rep s : JsString) : JsString :=
  replaceAllFrom pat rep 0 s

/-- The replacement text of `String.prototype.replace` for a string pattern
(`GetSubstitution` without captures): `$$` is a dollar sign, `$&` the matched
text, dollar-backtick the text before the match, dollar-apostrophe the text
after it; any other character stands for itself. -/
def getSubstitution (matched before after : JsString) : JsString → JsString
  | [] => []
  | [c] => [c]
  | c :: d :: rest =>
    if c = '$' ∧ d = '$' then '$' :: getSubstitution matched before after rest
    else if c = '$' ∧ d = '&' then matched ++ getSubstitution matched before after rest
    else if c = '$' ∧ d = Char.ofNat 96 then before ++ getSubstitution matched before after rest
    else if c = '$' ∧ d = Char.ofNat 39 then after ++ getSubstitution matched before after rest
    else c :: getSubstitution matched before after (d :: rest)

/-- `s.replace(pat, rep)` for a string pattern: only the first occurrence is
replaced.  `before` holds the characters already passed. -/
def replaceFrom (pat rep : JsString) : JsString → JsString → JsString
  | before, [] => before ++ (if pat = [] then getSubstitution pat before [] rep else [])
  | before, c :: cs =>
    if pat <+: c :: cs then
      before ++ getSubstitution pat before ((c :: cs).drop pat.length) rep
        ++ (c :: cs).drop pat.length
    else replaceFrom pat rep (before ++ [c]) cs

/-- `s.replace(pat, rep)`. -/
def replace (pat rep s : JsString) : JsString :=
  replaceFrom pat rep [] s

/-- The placeholder `"<damageSection>"`. -/
def damageSection : JsString := "<damageSection>".toList

/-! ## Values and records -/

/-- The values a button, a bonus or a selector field can take. -/
inductive JsVal where
  | undefined
  | null
  | str (s : JsString)
deriving DecidableEq

/-- Truthiness: of these values only a non-empty string is truthy. -/
def JsVal.truthy : JsVal → Bool
  | .str (_ :: _) => true
  | _ => false

/-- The operator `a ?? b`. -/
def JsVal.nullish (a b : JsVal) : JsVal :=
  match a with
  | .undefined => b
  | .null => b
  | v => v

/-- A roll modifier: a `name`, an `enabled` flag and its formula.  `ref` is
the identity of the object, so two modifiers with equal fields can still be two
objects. -/
structure Modifier where
  ref : Nat
  name : JsString
  enabled : Bool
  modifier : JsString
deriving DecidableEq

/-- An entry of a node's `calculatedMods`; the modifier is its `bonus`. -/
structure CalculatedMod where
  bonus : Modifier
deriving DecidableEq

/-- The field `referenceModifier` of a node: `null`, `undefined` or a modifier. -/
inductive ReferenceModifier where
  | null
  | undefined
  | modifier (m : Modifier)
deriving DecidableEq

/-- The modifier of a truthy `referenceModifier`. -/
def ReferenceModifier.truthy? : ReferenceModifier → Option Modifier
  | .modifier m => some m
  | _ => none

/-- The fields of a `RollNode` that `RollTree` reads or writes. -/
structure RollNode where
  formula : JsString
  referenceModifier : ReferenceModifier
  calculatedMods : Option (List CalculatedMod)
  isEnabled : Bool
deriving DecidableEq

/-- The node registry `this.nodes`, as `Object.entries` enumerates it: keys
that are array indices first, in ascending order, then the other keys in the
order of their insertion. -/
abbrev Nodes := List (JsString × RollNode)

/-- A damage part of `options.parts`. -/
structure Part where
  formula : Option JsString
  isDamageSection : Bool
  isPrimarySection : Bool
  enabled : Bool
  partIndex : Option JsString
deriving DecidableEq

/-- The result record `{finalRoll, formula}` of `RollNode.resolve`. -/
structure RollResult where
  finalRoll : JsString
  formula : JsString
deriving DecidableEq

/-- A selector `{target, options}` of the roll context; `options` is `none`
when the selector has no such property. -/
structure Selector where
  target : JsVal
  options : Option (List JsVal)
deriving DecidableEq

/-- The roll context: the object `allContexts`, whose properties are read and
written through the host, and the selectors, which may be missing. -/
structure RollContext (κ : Type) where
  allContexts : κ
  selectors : Option (List Selector)

/-- A button of `options.buttons`. -/
structure ButtonDef where
  id : JsVal
  label : JsVal
deriving DecidableEq

/-- The tree options read by `buildRoll` and `displayUI`. -/
structure Options where
  skipUI : Bool
  debug : Bool
  defaultButton : JsVal
  buttons : Option (List ButtonDef)
  parts : Option (List Part)
  mainDie : JsVal
  title : JsVal
  dialogOptions : JsVal

/-- The arguments of `RollDialog.showRollDialog`. -/
structure DialogRequest (κ : Type) where
  formula : JsString
  contexts : RollContext κ
  availableModifiers : List ReferenceModifier
  mainDie : JsVal
  buttons : Option (List ButtonDef)
  defaultButton : JsVal
  title : JsVal
  dialogOptions : JsVal
  parts : Option (List Part)

/-- What the dialog resolves to: `{button, rollMode, bonus, parts}`, and the
`enabled` flag in which it leaves each modifier (the dialog toggles the flag
on the modifier objects themselves). -/
structure DialogResult where
  button : JsVal
  rollMode : JsString
  bonus : JsVal
  parts : Option (List Part)
  modifierEnabled : Modifier → Bool

/-- The collaborators of `RollTree` defined outside `rolltree.js`, and the
property access of the JavaScript engine on the object `allContexts`, whose
values have type `ν`. -/
structure Host (κ ν : Type) where
  /-- The value of `allContexts[key]`; `none` when the read throws. -/
  getProperty : κ → JsString → Option ν
  /-- The object after `allContexts[key] = value`; `none` when the write throws. -/
  setProperty : κ → JsString → ν → Option κ
  /-- Whether `RollNode.getContextForVariable(variable, contexts)` finds a context. -/
  getContextForVariable : JsString → RollContext κ → Bool
  /-- The registry after `this.nodes[formula] = rootNode` and
  `rootNode.populate(this.nodes, contexts)`. -/
  populateRoot : JsString → RollContext κ → Nodes
  /-- The value of `rootNode.resolve(0, rollMods)` for a registry. -/
  resolveRoot : Nodes → List Modifier → RollResult
  /-- The value of `RollDialog.showRollDialog`. -/
  showRollDialog : DialogRequest κ → DialogResult
  /-- The value of `game.settings.get("core", "rollMode")`. -/
  rollMode : JsString
  /-- The text of `game.i18n.format("SFRPG.Rolls.Dice.Formula.AdditionalBonus", {bonus})`. -/
  formatAdditionalBonus : JsString → JsString
  /-- The text of `game.i18n.format("SFRPG.Damage.PartIndex", {partIndex, partCount})`. -/
  formatPartIndex : Nat → Nat → JsString

/-! ## `buildRoll`, step by step -/

section Steps

variable {κ ν : Type}

/-- One iteration of the selector loop (lines 26-30); `none` when it throws:
at line 27 for a selector without `options`, at line 29 when the read or the
write throws. -/
def applySelector (host : Host κ ν) (allContexts : κ) (selector : Selector) : Option κ :=
  let selectorTarget := selector.target
  match selector.options with
  | none => none
  | some options =>
    let firstValue := options.headD JsVal.undefined
    match selectorTarget, firstValue with
    | .str (a :: as), .str (b :: bs) =>
      match host.getProperty allContexts (b :: bs) with
      | some value => host.setProperty allContexts (a :: as) value
      | none => none
    | _, _ => some allContexts

/-- The `for` loop of lines 25-31: the object `allContexts` when the loop
ends, and whether it ended because an iteration threw. -/
def runSelectors (host : Host κ ν) : κ → List Selector → κ × Bool
  | allContexts, [] => (allContexts, false)
  | allContexts, selector :: rest =>
    match applySelector host allContexts selector with
    | some updated => runSelectors host updated rest
    | none => (allContexts, true)

/-- The roll context after the selector loop (lines 24-32). -/
def initializeSelectors (host : Host κ ν) (contexts : RollContext κ) : RollContext κ :=
  match contexts.selectors with
  | some selectors =>
    { contexts with allContexts := (runSelectors host contexts.allContexts selectors).1 }
  | none => contexts

/-- Whether the selector loop (lines 24-32) throws. -/
def selectorsThrow (host : Host κ ν) (contexts : RollContext κ) : Bool :=
  match contexts.selectors with
  | some selectors => (runSelectors host contexts.allContexts selectors).2
  | none => false

/-- The variable check (lines 35-42): each variable without a context is
replaced by `0` throughout the formula. -/
def verifyVariables (host : Host κ ν) (contexts : RollContext κ) (formula : JsString) :
    JsString :=
  (variableMatches formula).foldl
    (fun formula v =>
      if host.getContextForVariable v contexts then formula
      else replaceAll v "0".toList formula)
    formula

/-- The inner loop of `populate` (lines 159-163) for one calculated modifier. -/
def pushCalculatedMod (formula : JsString) (rollMods : List Modifier)
    (mod : CalculatedMod) : List Modifier :=
  if rollMods.all (fun x => x.name ≠ mod.bonus.name) ∧ ¬ mod.bonus.name <:+: formula then
    rollMods ++ [mod.bonus]
  else rollMods

/-- The body of the loop of `populate` (lines 155-164) for one node. -/
def collectNode (formula : JsString) (rollMods : List Modifier)
    (entry : JsString × RollNode) : List Modifier :=
  let value := entry.2
  let rollMods :=
    match value.referenceModifier.truthy? with
    | some m => rollMods ++ [m]
    | none => rollMods
  match value.calculatedMods with
  | some mods => mods.foldl (pushCalculatedMod formula) rollMods
  | none => rollMods

/-- The state `populate` leaves in the tree. -/
structure Tree where
  nodes : Nodes
  rollMods : List Modifier

/-- The method `populate` (lines 141-166). -/
def populate (host : Host κ ν) (formula : JsString) (contexts : RollContext κ) : Tree :=
  let nodes := host.populateRoot formula contexts
  { nodes := nodes, rollMods := nodes.foldl (collectNode formula) [] }

/-- The list `allRolledMods` (lines 45-47): the `referenceModifier` of every
node where it is not `null`; an `undefined` one is kept. -/
def allRolledMods (nodes : Nodes) : List ReferenceModifier :=
  (nodes.filter (fun x => x.2.referenceModifier ≠ ReferenceModifier.null)).map
    (fun x => x.2.referenceModifier)

/-- The arguments `displayUI` passes to the dialog (lines 172-184). -/
def displayUIRequest (options : Options) (formula : JsString) (contexts : RollContext κ)
    (availableModifiers : List ReferenceModifier) : DialogRequest κ :=
  { formula := formula
    contexts := contexts
    availableModifiers := availableModifiers
    mainDie := options.mainDie
    buttons := options.buttons
    defaultButton := options.defaultButton
    title := options.title
    dialogOptions := options.dialogOptions
    parts := options.parts.map (fun parts => parts.filter (fun x => x.isDamageSection)) }

/-- The method `displayUI` (lines 168-185). -/
def displayUI (host : Host κ ν) (options : Options) (formula : JsString)
    (contexts : RollContext κ) (availableModifiers : List ReferenceModifier) :
    DialogResult :=
  host.showRollDialog (displayUIRequest options formula contexts availableModifiers)

/-- The outcome of the selection step (lines 49-60). -/
structure Selection where
  button : JsVal
  rollMode : JsString
  bonus : JsVal
  enabledParts : Option (List Part)
  modifierEnabled : Modifier → Bool

/-- The button chosen when the UI is skipped (line 51); `none` when the
expression throws, which it does for an empty `options.buttons`. -/
def skipUIButton (options : Options) : Option JsVal :=
  if options.defaultButton.truthy then some options.defaultButton
  else
    match options.buttons with
    | none => some (JsVal.str "roll".toList)
    | some [] => none
    | some (first :: _) => some (first.id.nullish first.label)

/-- The selection read off the dialog's answer (lines 58-59). -/
def answerSelection (answer : DialogResult) : Selection :=
  { button := answer.button
    rollMode := answer.rollMode
    bonus := answer.bonus
    enabledParts := answer.parts.map (fun parts => parts.filter (fun x => x.enabled))
    modifierEnabled := answer.modifierEnabled }

/-- The selection step (lines 49-60); `none` when it throws. -/
def select (host : Host κ ν) (options : Options) (formula : JsString)
    (contexts : RollContext κ) (mods : List ReferenceModifier) : Option Selection :=
  if options.skipUI then
    (skipUIButton options).map fun button =>
      { button := button
        rollMode := host.rollMode
        bonus := JsVal.null
        enabledParts := options.parts.map (fun parts => parts.filter (fun x => x.isDamageSection))
        modifierEnabled := fun m => m.enabled }
  else some (answerSelection (displayUI host options formula contexts mods))

/-- A modifier with the `enabled` flag the selection step left on that object. -/
def finalizeModifier (selection : Selection) (m : Modifier) : Modifier :=
  { m with enabled := selection.modifierEnabled m }

/-- The enable loop (lines 68-72). -/
def applyEnabled (selection : Selection) (nodes : Nodes) : Nodes :=
  nodes.map fun entry =>
    match entry.2.referenceModifier.truthy? with
    | some m =>
      (entry.1, { entry.2 with
        referenceModifier := ReferenceModifier.modifier (finalizeModifier selection m)
        isEnabled := (finalizeModifier selection m).enabled })
    | none => entry

/-- The section result before the bonus (lines 77-89). -/
def finalSectionFormula (finalRollFormula : RollResult) (part : Part) : RollResult :=
  if damageSection <:+: finalRollFormula.finalRoll then
    let damageSectionFormula := part.formula.getD "0".toList
    if part.isPrimarySection then
      { finalRoll := replace damageSection damageSectionFormula finalRollFormula.finalRoll
        formula := replace damageSection damageSectionFormula finalRollFormula.formula }
    else
      { finalRoll := damageSectionFormula
        formula := damageSectionFormula }
  else finalRollFormula

/-- The single result before the bonus (lines 114-117). -/
def leftoverSection (finalRollFormula : RollResult) : RollResult :=
  if damageSection <:+: finalRollFormula.finalRoll then
    { finalRoll := replace damageSection "0".toList finalRollFormula.finalRoll
      formula := replace damageSection "0".toList finalRollFormula.formula }
  else finalRollFormula

/-- The list `operators` (lines 93 and 120). -/
def operators : List Char := ['+', '-', '*', '/']

/-- The bonus block (lines 91-100 and 119-127, the same text twice). -/
def appendBonus (host : Host κ ν) (bonus : JsVal) (result : RollResult) : RollResult :=
  match bonus with
  | .str (first :: more) =>
    let result :=
      if operators.contains first then result
      else
        { finalRoll := result.finalRoll ++ " +".toList
          formula := result.formula ++ " +".toList }
    { finalRoll := result.finalRoll ++ (" ".toList ++ first :: more)
      formula := result.formula ++ host.formatAdditionalBonus (first :: more) }
  | _ => result

/-- An invocation of the callback, by call site. -/
inductive Call where
  /-- The call of line 64, with its three arguments. -/
  | cancel (button rollMode : JsString) (result : Option RollResult)
  /-- The call of line 110 (the root node argument is left out). -/
  | perPart (button : JsVal) (rollMode : JsString) (result : RollResult) (part : Part)
      (rollMods : List Modifier) (bonus : JsVal)
  /-- The call of line 134 (the root node argument is left out). -/
  | single (button : JsVal) (rollMode : JsString) (result : RollResult)
      (rollMods : List Modifier) (bonus : JsVal)
deriving DecidableEq

/-- The part handed to the callback (lines 107-109): labelled when there is
more than one enabled part. -/
def labelPart (host : Host κ ν) (partCount partIndex : Nat) (part : Part) : Part :=
  if partCount > 1 then
    { part with partIndex := some (host.formatPartIndex (partIndex + 1) partCount) }
  else part

/-- The loop over the enabled parts (lines 76-112). -/
def sectionCalls (host : Host κ ν) (callback : Bool) (selection : Selection)
    (rollMods : List Modifier) (finalRollFormula : RollResult)
    (enabledParts : List Part) : List Call :=
  if callback then
    enabledParts.enum.map fun (partIndex, part) =>
      Call.perPart selection.button selection.rollMode
        (appendBonus host selection.bonus (finalSectionFormula finalRollFormula part))
        (labelPart host enabledParts.length partIndex part) rollMods selection.bonus
  else []

/-- The branch without enabled parts (lines 114-135). -/
def singleCalls (host : Host κ ν) (callback : Bool) (selection : Selection)
    (rollMods : List Modifier) (finalRollFormula : RollResult) : List Call :=
  if callback then
    [Call.single selection.button selection.rollMode
      (appendBonus host selection.bonus (leftoverSection finalRollFormula))
      rollMods selection.bonus]
  else []

/-- What a call of `buildRoll` does: the value it returns and the callback
invocations it makes, in order. -/
structure Outcome where
  returned : Bool
  calls : List Call
deriving DecidableEq

/-- The state of `buildRoll` when the selection step ends (lines 23-60). -/
structure Pending (κ : Type) where
  contexts : RollContext κ
  formula : JsString
  tree : Tree
  allRolledMods : List ReferenceModifier
  selection : Option Selection

/-- Lines 23-60 of `buildRoll`.  When the selector loop throws there is no
selection, and the code does not reach what the other fields describe. -/
def prepare (host : Host κ ν) (options : Options) (formula : JsString)
    (contexts : RollContext κ) : Pending κ :=
  let threw := selectorsThrow host contexts
  let contexts := initializeSelectors host contexts
  let formula := verifyVariables host contexts formula
  let tree := populate host formula contexts
  let allRolledMods := allRolledMods tree.nodes
  { contexts := contexts
    formula := formula
    tree := tree
    allRolledMods := allRolledMods
    selection :=
      if threw then none else select host options formula contexts allRolledMods }

/-- The list `this.rollMods` as the callback receives it: the modifiers carry
the `enabled` flag the selection step left on them. -/
def finalRollMods (tree : Tree) (selection : Selection) : List Modifier :=
  tree.rollMods.map (finalizeModifier selection)

/-- The template `finalRollFormula` of line 74, resolved after the enable loop. -/
def resolveTemplate (host : Host κ ν) (tree : Tree) (selection : Selection) : RollResult :=
  host.resolveRoot (applyEnabled selection tree.nodes) (finalRollMods tree selection)

/-- Lines 62-138 of `buildRoll`; `none` when the call of line 64 throws
because there is no callback. -/
def finish (host : Host κ ν) (callback : Bool) (tree : Tree) (selection : Selection) :
    Option Outcome :=
  match selection.button with
  | .null =>
    if callback then
      some { returned := false, calls := [Call.cancel "cancel".toList "none".toList none] }
    else none
  | _ =>
    let finalRollFormula := resolveTemplate host tree selection
    match selection.enabledParts with
    | some (part :: parts) =>
      some { returned := true
             calls := sectionCalls host callback selection (finalRollMods tree selection)
               finalRollFormula (part :: parts) }
    | _ =>
      some { returned := true
             calls := singleCalls host callback selection (finalRollMods tree selection)
               finalRollFormula }

/-- The method `buildRoll` (lines 22-139); `none` when it throws. -/
def buildRoll (host : Host κ ν) (options : Options) (formula : JsString)
    (contexts : RollContext κ) (callback : Bool) : Option Outcome :=
  let pending := prepare host options formula contexts
  match pending.selection with
  | some selection => finish host callback pending.tree selection
  | none => none

end Steps

/-! ## Notions used to state the properties -/

/-- The names of a list of modifiers. -/
def modNames (mods : List Modifier) : List JsString :=
  mods.map Modifier.name

/-- The relation between an earlier and a later registry entry under which
the later reference modifier cannot repeat a name: its name differs from the
earlier reference modifier and from every earlier calculated modifier. -/
def FreshReference (earlier later : JsString × RollNode) : Prop :=
  ∀ m, later.2.referenceModifier.truthy? = some m →
    (∀ m0, earlier.2.referenceModifier.truthy? = some m0 → m0.name ≠ m.name) ∧
    (∀ mods, earlier.2.calculatedMods = some mods → ∀ c ∈ mods, c.bonus.name ≠ m.name)

/-- In words: `result` is `s` with the first occurrence of `pat` replaced by
`rep`, and `s` itself when `pat` does not occur in `s`. -/
def FirstReplaced (pat rep s result : JsString) : Prop :=
  (¬ pat <:+: s ∧ result = s) ∨
  ∃ a b, s = a ++ pat ++ b ∧ (∀ a2 b2, s = a2 ++ pat ++ b2 → a.length ≤ a2.length) ∧
    result = a ++ rep ++ b

/-- The number of positions of `s` at which an occurrence of `pat` starts. -/
def occurrences (pat : JsString) : JsString → Nat
  | [] => if pat = [] then 1 else 0
  | c :: cs => (if pat <+: c :: cs then 1 else 0) + occurrences pat cs

/-- For each `@` of a string, the run of class characters that follows it. -/
def runs : JsString → List JsString
  | [] => []
  | c :: cs => if c = '@' then cs.takeWhile isVarChar :: runs cs else runs cs

/-- No `@` of the string comes right after a variable, that is, after another
`@` with nothing but class characters in between.  `inRun` tells whether the
string starts inside such a stretch. -/
def variablesSeparated : Bool → JsString → Bool
  | _, [] => true
  | inRun, c :: cs =>
    if c = '@' then !inRun && variablesSeparated true cs
    else variablesSeparated (inRun && isVarChar c) cs

/-- The head of a string that ends a variable: nothing, or a character that
is neither `@` nor a class character. -/
def EndsRun (y : JsString) : Prop :=
  ∀ d ∈ y.head?, d ≠ '@' ∧ isVarChar d = false

/-- A write to `key` is an ordinary property write: when it does not throw,
`key` then reads as the value written and every other name reads as before.
(On a JavaScript object this fails for the name `__proto__`, whose write sets
the prototype or is ignored.) -/
def OrdinaryWrite {κ ν : Type} (host : Host κ ν) (key : JsString) : Prop :=
  ∀ (allContexts updated : κ) (value : ν),
    host.setProperty allContexts key value = some updated →
    host.getProperty updated key = some value ∧
    ∀ other, other ≠ key → host.getProperty updated other = host.getProperty allContexts other

/-! ## Concrete inputs -/

/-- A modifier named `name`, enabled, contributing `1`. -/
def sampleMod (name : String) : Modifier :=
  { ref := 0, name := name.toList, enabled := true, modifier := "1".toList }

/-- A part with the given formula and flags. -/
def samplePart (formula : String) (isDamageSection isPrimarySection enabled : Bool) : Part :=
  { formula := some formula.toList, isDamageSection := isDamageSection,
    isPrimarySection := isPrimarySection, enabled := enabled, partIndex := none }

/-- A dialog answer: the given button, bonus and parts, modifiers left as they are. -/
def sampleAnswer (button bonus : JsVal) (parts : Option (List Part)) : DialogResult :=
  { button := button, rollMode := "publicroll".toList, bonus := bonus, parts := parts,
    modifierEnabled := fun m => m.enabled }

/-- A host: `allContexts` is a table of numbers in which a name without entry
reads as `undefined` and a write to a name other than `__proto__` sets its
entry (a write of a number or of `undefined` to `__proto__` changes nothing);
no variable has a context, the registry is `extra` after the root node, the
root resolves to its own formula, the dialog answers `answer`, and a part
label is `partIndex` strokes, a slash and `partCount` strokes. -/
def sampleHost (extra : Nodes) (answer : DialogResult) :
    Host (JsString → Option Nat) (Option Nat) :=
  { getProperty := fun allContexts key => some (allContexts key)
    setProperty := fun allContexts key value =>
      if key = "__proto__".toList then some allContexts
      else some (fun k => if k = key then value else allContexts k)
    getContextForVariable := fun _ _ => false
    populateRoot := fun formula _ =>
      (formula, { formula := formula, referenceModifier := ReferenceModifier.null,
                  calculatedMods := none, isEnabled := true }) :: extra
    resolveRoot := fun nodes _ =>
      match nodes with
      | entry :: _ => { finalRoll := entry.1, formula := entry.1 }
      | [] => { finalRoll := [], formula := [] }
    showRollDialog := fun _ => answer
    rollMode := "gmroll".toList
    formatAdditionalBonus := fun bonus => " & ".toList ++ bonus
    formatPartIndex := fun partIndex partCount =>
      List.replicate partIndex '|' ++ '/' :: List.replicate partCount '|' }

/-- Tree options: the skip flag and the parts; nothing else configured. -/
def sampleOptions (skipUI : Bool) (parts : Option (List Part)) : Options :=
  { skipUI := skipUI, debug := false, defaultButton := JsVal.undefined, buttons := none,
    parts := parts, mainDie := JsVal.undefined, title := JsVal.undefined,
    dialogOptions := JsVal.undefined }

/-- A roll context without contexts and without selectors. -/
def emptyContext : RollContext (JsString → Option Nat) :=
  { allContexts := fun _ => none, selectors := none }

/-- A roll context with the contexts `attacker` (the number one) and
`defender` (two) and the given selectors. -/
def duelContext (selectors : List Selector) : RollContext (JsString → Option Nat) :=
  { allContexts := fun key =>
      if key = "attacker".toList then some 1
      else if key = "defender".toList then some 2 else none
    selectors := some selectors }

/-- The selector `{target, options}` with string entries. -/
def sampleSelector (target : String) (options : List String) : Selector :=
  { target := JsVal.str target.toList
    options := some (options.map fun option => JsVal.str option.toList) }

section Cancellation

variable {κ ν : Type}

/-- C3: when the selection step yields the button `null` and a callback was
passed, `buildRoll` returns `false` and the callback is invoked exactly once,
with `("cancel", "none", null)`, so no roll result is emitted; when the button
is anything but `null`, `buildRoll` returns `true`, with or without callback. -/
theorem buildRoll_cancel_iff_null (host : Host κ ν) (options : Options) (formula : JsString)
    (contexts : RollContext κ) (button : JsVal)
    (hbutton : (prepare host options formula contexts).selection.map Selection.button
      = some button) :
    (button = JsVal.null →
      buildRoll host options formula contexts true
        = some { returned := false
                 calls := [Call.cancel "cancel".toList "none".toList none] }) ∧
    (button ≠ JsVal.null → ∀ callback : Bool,
      (buildRoll host options formula contexts callback).map Outcome.returned = some true) := by
  cases hsel : (prepare host options formula contexts).selection with
  | none => simp [hsel] at hbutton
  | some selection =>
    simp only [hsel, Option.map_some', Option.some.injEq] at hbutton
    have hrun : ∀ callback, buildRoll host options formula contexts callback
        = finish host callback (prepare host options formula contexts).tree selection := by
      intro callback
      simp only [buildRoll, hsel]
    refine ⟨fun hnull => ?_, fun hne callback => ?_⟩
    · rw [hrun, finish, hbutton, hnull]
      simp
    · rw [hrun, finish]
      cases hb : selection.button with
      | null => exact absurd (hbutton.symm.trans hb) hne
      | undefined => cases hp : selection.enabledParts with
        | none => simp
        | some parts => cases parts <;> simp
      | str s => cases hp : selection.enabledParts with
        | none => simp
        | some parts => cases parts <;> simp

/-- C3, on concrete rolls: a dialog answering `null` cancels, a dialog
answering the button `roll` does not. -/
theorem buildRoll_cancel_iff_null_witness :
    buildRoll (sampleHost [] (sampleAnswer JsVal.null JsVal.null none))
        (sampleOptions false none) "1d20 + @missing.value".toList emptyContext true
      = some { returned := false
               calls := [Call.cancel "cancel".toList "none".toList none] } ∧
    (buildRoll (sampleHost [] (sampleAnswer (JsVal.str "roll".toList) JsVal.null none))
        (sampleOptions false none) "1d20 + @missing.value".toList emptyContext false).map
      Outcome.returned = some true :=
  ⟨(buildRoll_cancel_iff_null (sampleHost [] (sampleAnswer JsVal.null JsVal.null none))
      (sampleOptions false none) "1d20 + @missing.value".toList emptyContext JsVal.null
      (by decide)).1 rfl,
   (buildRoll_cancel_iff_null
      (sampleHost [] (sampleAnswer (JsVal.str "roll".toList) JsVal.null none))
      (sampleOptions false none) "1d20 + @missing.value".toList emptyContext
      (JsVal.str "roll".toList) (by decide)).2 (by decide) false⟩

end Cancellation

section Bonus

variable {κ ν : Type}

/-- The text `appendBonus` adds to the machine formula for a non-empty bonus. -/
theorem appendBonus_finalRoll (host : Host κ ν) (first : Char) (more : JsString)
    (result : RollResult) :
    (appendBonus host (JsVal.str (first :: more)) result).finalRoll
      = result.finalRoll ++
          ((if first ∈ operators then " ".toList else " + ".toList) ++ first :: more) := by
  unfold appendBonus
  by_cases h : first ∈ operators
  · simp [h]
  · simp [h]

/-- C4 (amended): on the per-section path and on the single-result path alike,
the text appended to `finalRoll` for a non-empty bonus is a space followed by
the bonus when the bonus starts with one of `+ - * /`, and otherwise a space, a
plus sign, a space and the bonus. -/
theorem bonus_text_appended (host : Host κ ν) (first : Char) (more : JsString)
    (finalRollFormula : RollResult) (part : Part) :
    (appendBonus host (JsVal.str (first :: more))
        (finalSectionFormula finalRollFormula part)).finalRoll
      = (finalSectionFormula finalRollFormula part).finalRoll ++
          ((if first ∈ operators then " ".toList else " + ".toList) ++ first :: more) ∧
    (appendBonus host (JsVal.str (first :: more)) (leftoverSection finalRollFormula)).finalRoll
      = (leftoverSection finalRollFormula).finalRoll ++
          ((if first ∈ operators then " ".toList else " + ".toList) ++ first :: more) :=
  ⟨appendBonus_finalRoll host first more _, appendBonus_finalRoll host first more _⟩

/-- C4, as stated, fails for the bonus `4`: with the dialog answering the
bonus `4` for the formula `1d20`, the machine formula emitted is `1d20 + 4`,
which is not `1d20` followed by ` +4`. -/
theorem bonus_text_counterexample :
    buildRoll (sampleHost [] (sampleAnswer (JsVal.str "roll".toList) (JsVal.str "4".toList) none))
        (sampleOptions false none) "1d20".toList emptyContext true
      = some { returned := true
               calls := [Call.single (JsVal.str "roll".toList) "publicroll".toList
                 { finalRoll := "1d20 + 4".toList, formula := "1d20 + & 4".toList } []
                 (JsVal.str "4".toList)] } ∧
    "1d20 + 4".toList ≠ "1d20".toList ++ " +4".toList := by
  decide

end Bonus

section Emission

variable {κ ν : Type}

/-- With a selection whose button is not `null`, `buildRoll` is `finish`
without its cancel branch. -/
theorem buildRoll_of_selection (host : Host κ ν) (options : Options) (formula : JsString)
    (contexts : RollContext κ) (callback : Bool) (selection : Selection)
    (hsel : (prepare host options formula contexts).selection = some selection)
    (hbutton : selection.button ≠ JsVal.null) :
    buildRoll host options formula contexts callback =
      some
        { returned := true
          calls :=
            match selection.enabledParts with
            | some (part :: parts) =>
              sectionCalls host callback selection
                (finalRollMods (prepare host options formula contexts).tree selection)
                (resolveTemplate host (prepare host options formula contexts).tree selection)
                (part :: parts)
            | _ =>
              singleCalls host callback selection
                (finalRollMods (prepare host options formula contexts).tree selection)
                (resolveTemplate host (prepare host options formula contexts).tree
                  selection) } := by
  simp only [buildRoll, hsel, finish]
  cases hb : selection.button with
  | null => exact absurd hb hbutton
  | undefined => cases hp : selection.enabledParts with
    | none => simp
    | some parts => cases parts <;> simp
  | str s => cases hp : selection.enabledParts with
    | none => simp
    | some parts => cases parts <;> simp

/-- The calls of the loop over the enabled parts, by index. -/
theorem sectionCalls_get (host : Host κ ν) (selection : Selection)
    (rollMods : List Modifier) (finalRollFormula : RollResult) (enabledParts : List Part)
    (i : Nat) (hi : i < enabledParts.length) :
    (sectionCalls host true selection rollMods finalRollFormula enabledParts)[i]? =
      some (Call.perPart selection.button selection.rollMode
        (appendBonus host selection.bonus (finalSectionFormula finalRollFormula enabledParts[i]))
        (labelPart host enabledParts.length i enabledParts[i]) rollMods selection.bonus) := by
  simp [sectionCalls, List.getElem?_map, List.enum, List.getElem?_enumFrom, hi,
    List.getElem?_eq_getElem]

end Emission

section Sections

variable {κ ν : Type}

/-- C5: with a callback, a button other than `null` and `N ≥ 1` enabled parts,
`buildRoll` returns `true` and invokes the callback exactly `N` times, the
`i`-th invocation carrying the `i`-th part; for `N > 1` that part carries the
label built from `partIndex = i + 1` (counting from one) and `partCount = N`,
for `N = 1` the part is passed as it is. -/
theorem sections_emitted_in_order (host : Host κ ν) (options : Options) (formula : JsString)
    (contexts : RollContext κ) (selection : Selection) (parts : List Part)
    (hsel : (prepare host options formula contexts).selection = some selection)
    (hbutton : selection.button ≠ JsVal.null)
    (hparts : selection.enabledParts = some parts)
    (hne : 1 ≤ parts.length) :
    ∃ calls : List Call,
      buildRoll host options formula contexts true = some { returned := true, calls := calls } ∧
      calls.length = parts.length ∧
      ∀ (i : Nat) (hi : i < parts.length), ∃ result rollMods,
        calls[i]? = some (Call.perPart selection.button selection.rollMode result
          (if parts.length > 1 then
            { parts[i] with
              partIndex := some (host.formatPartIndex (i + 1) parts.length) }
           else parts[i])
          rollMods selection.bonus) := by
  rw [buildRoll_of_selection host options formula contexts true selection hsel hbutton, hparts]
  cases parts with
  | nil => simp at hne
  | cons part rest =>
    refine ⟨_, rfl, ?_, ?_⟩
    · simp [sectionCalls, List.enum]
    · intro i hi
      exact ⟨_, _, sectionCalls_get host selection _ _ (part :: rest) i hi⟩

/-- C5, on a concrete roll: three enabled parts give three invocations, in
part order, labelled one, two and three of three. -/
theorem sections_emitted_in_order_witness :
    (∃ calls : List Call,
      buildRoll
          (sampleHost []
            (sampleAnswer (JsVal.str "roll".toList) JsVal.null
              (some [samplePart "1d6" true true true, samplePart "1d4" true false true,
                samplePart "2" true false true])))
          (sampleOptions false none) "1d20".toList emptyContext true
        = some { returned := true, calls := calls } ∧
      calls.length = 3) ∧
    (buildRoll
        (sampleHost []
          (sampleAnswer (JsVal.str "roll".toList) JsVal.null
            (some [samplePart "1d6" true true true, samplePart "1d4" true false true,
              samplePart "2" true false true])))
        (sampleOptions false none) "1d20".toList emptyContext true).map
      (fun outcome => outcome.calls.map fun call =>
        match call with
        | Call.perPart _ _ _ part _ _ => (part.formula, part.partIndex)
        | _ => (none, none))
      = some [(some "1d6".toList, some "|/|||".toList),
          (some "1d4".toList, some "||/|||".toList),
          (some "2".toList, some "|||/|||".toList)] :=
  ⟨(sections_emitted_in_order
      (sampleHost []
        (sampleAnswer (JsVal.str "roll".toList) JsVal.null
          (some [samplePart "1d6" true true true, samplePart "1d4" true false true,
            samplePart "2" true false true])))
      (sampleOptions false none) "1d20".toList emptyContext
      (answerSelection
        (sampleAnswer (JsVal.str "roll".toList) JsVal.null
          (some [samplePart "1d6" true true true, samplePart "1d4" true false true,
            samplePart "2" true false true])))
      [samplePart "1d6" true true true, samplePart "1d4" true false true,
        samplePart "2" true false true] rfl (by decide) rfl (by decide)).imp
     fun _ h => ⟨h.1, h.2.1⟩,
   by decide⟩

end Sections

section SkipUI

variable {κ ν : Type}

/-- C9 (amended): when the UI is skipped, the selection has no bonus and its
enabled parts are the configured parts flagged `isDamageSection`, primary or
not, in their configured order (and there are none when no parts are
configured). -/
theorem skipUI_selection (host : Host κ ν) (options : Options) (formula : JsString)
    (contexts : RollContext κ) (selection : Selection) (hskip : options.skipUI = true)
    (hsel : (prepare host options formula contexts).selection = some selection) :
    selection.bonus = JsVal.null ∧
    selection.enabledParts
      = options.parts.map (fun parts => parts.filter (fun x => x.isDamageSection)) := by
  simp only [prepare, select, hskip, if_true] at hsel
  split at hsel
  · exact absurd hsel (by simp)
  · obtain ⟨button, -, rfl⟩ := Option.map_eq_some'.1 hsel
    exact ⟨rfl, rfl⟩

/-- C9, on a concrete tree with one primary and one secondary damage part and
one part that is no damage section. -/
theorem skipUI_selection_witness :
    (prepare (sampleHost [] (sampleAnswer JsVal.null JsVal.null none))
        (sampleOptions true
          (some [samplePart "1d6" true true false, samplePart "1d4" true false false,
            samplePart "1d8" false false false]))
        "1d20".toList emptyContext).selection.map (fun s => (s.bonus, s.enabledParts))
      = some (JsVal.null,
          some [samplePart "1d6" true true false, samplePart "1d4" true false false]) := by
  have h := skipUI_selection (sampleHost [] (sampleAnswer JsVal.null JsVal.null none))
    (sampleOptions true
      (some [samplePart "1d6" true true false, samplePart "1d4" true false false,
        samplePart "1d8" false false false]))
    "1d20".toList emptyContext
    { button := JsVal.str "roll".toList, rollMode := "gmroll".toList, bonus := JsVal.null,
      enabledParts :=
        some [samplePart "1d6" true true false, samplePart "1d4" true false false],
      modifierEnabled := fun m => m.enabled } rfl rfl
  decide

/-- C9, as stated, fails: with the UI skipped, a damage part that is not
primary is among the enabled parts. -/
theorem skipUI_selection_counterexample :
    (prepare (sampleHost [] (sampleAnswer JsVal.null JsVal.null none))
        (sampleOptions true (some [samplePart "1d4" true false false]))
        "1d20".toList emptyContext).selection.map Selection.enabledParts
      = some (some [samplePart "1d4" true false false]) ∧
    [samplePart "1d4" true false false]
      ≠ [samplePart "1d4" true false false].filter
          (fun x => x.isDamageSection && x.isPrimarySection) := by
  decide

end SkipUI

section Dialog

variable {κ ν : Type}

/-- The modifiers of `allRolledMods` are the truthy reference modifiers of
the registry, in registry order. -/
theorem allRolledMods_modifiers (nodes : Nodes) :
    (allRolledMods nodes).filterMap ReferenceModifier.truthy?
      = nodes.filterMap (fun entry => entry.2.referenceModifier.truthy?) := by
  induction nodes with
  | nil => rfl
  | cons entry rest ih =>
    unfold allRolledMods at ih ⊢
    cases href : entry.2.referenceModifier with
    | null => simpa [List.filter_cons, href, ReferenceModifier.truthy?] using ih
    | undefined => simpa [List.filter_cons, href, ReferenceModifier.truthy?] using ih
    | modifier m => simpa [List.filter_cons, href, ReferenceModifier.truthy?] using ih

/-- The truthy reference modifiers are pushed to `rollMods` in registry order,
so they form a sublist of it. -/
theorem references_sublist_foldl (formula : JsString) (nodes : Nodes)
    (acc acc2 : List Modifier) (h : List.Sublist acc2 acc) :
    List.Sublist (acc2 ++ nodes.filterMap (fun entry => entry.2.referenceModifier.truthy?))
      (nodes.foldl (collectNode formula) acc) := by
  induction nodes generalizing acc acc2 with
  | nil => simpa using h
  | cons entry rest ih =>
    have hcalc : ∀ (mods : List CalculatedMod) (a b : List Modifier), List.Sublist b a →
        List.Sublist b (mods.foldl (pushCalculatedMod formula) a) := by
      intro mods
      induction mods with
      | nil => intro a b hab; simpa using hab
      | cons mod more ihm =>
        intro a b hab
        simp only [List.foldl_cons]
        apply ihm
        unfold pushCalculatedMod
        split
        · exact hab.trans (List.sublist_append_left a [mod.bonus])
        · exact hab
    simp only [List.foldl_cons]
    cases href : entry.2.referenceModifier.truthy? with
    | none =>
      have hstep : List.Sublist acc2 (collectNode formula acc entry) := by
        unfold collectNode
        simp only [href]
        cases entry.2.calculatedMods with
        | none => exact h
        | some mods => exact hcalc mods acc acc2 h
      have := ih _ _ hstep
      simpa [href] using this
    | some m =>
      have hstep : List.Sublist (acc2 ++ [m]) (collectNode formula acc entry) := by
        unfold collectNode
        simp only [href]
        cases entry.2.calculatedMods with
        | none => exact List.Sublist.append h (List.Sublist.refl [m])
        | some mods => exact hcalc mods _ _ (List.Sublist.append h (List.Sublist.refl [m]))
      have := ih _ _ hstep
      simpa [href] using this

/-- C8 (amended): when the UI is not skipped, the selection the tree works
with is the dialog's answer to a request whose candidate modifier list is, in
registry order, the `referenceModifier` of every registered node where it is
not `null` (an `undefined` one is passed as it is), and the modifiers in that
list form a sublist of the `rollMods` built by `populate`. -/
theorem dialog_receives_reference_modifiers (host : Host κ ν) (options : Options)
    (formula : JsString) (contexts : RollContext κ) (selection : Selection)
    (hskip : options.skipUI = false)
    (hsel : (prepare host options formula contexts).selection = some selection) :
    selection
      = answerSelection (host.showRollDialog
          (displayUIRequest options (prepare host options formula contexts).formula
            (prepare host options formula contexts).contexts
            (((prepare host options formula contexts).tree.nodes.filter
              fun x => x.2.referenceModifier ≠ ReferenceModifier.null).map
              fun x => x.2.referenceModifier))) ∧
    (displayUIRequest options (prepare host options formula contexts).formula
        (prepare host options formula contexts).contexts
        (((prepare host options formula contexts).tree.nodes.filter
          fun x => x.2.referenceModifier ≠ ReferenceModifier.null).map
          fun x => x.2.referenceModifier)).availableModifiers
      = ((prepare host options formula contexts).tree.nodes.filter
          fun x => x.2.referenceModifier ≠ ReferenceModifier.null).map
          (fun x => x.2.referenceModifier) ∧
    List.Sublist
      ((((prepare host options formula contexts).tree.nodes.filter
          fun x => x.2.referenceModifier ≠ ReferenceModifier.null).map
          fun x => x.2.referenceModifier).filterMap ReferenceModifier.truthy?)
      (prepare host options formula contexts).tree.rollMods := by
  refine ⟨?_, rfl, ?_⟩
  · simp only [prepare, select, hskip] at hsel
    split at hsel
    · exact absurd hsel (by simp)
    · simp only [Bool.false_eq_true, if_false, Option.some.injEq] at hsel
      rw [← hsel]
      rfl
  · have h := references_sublist_foldl
      (verifyVariables host (initializeSelectors host contexts) formula)
      (host.populateRoot (verifyVariables host (initializeSelectors host contexts) formula)
        (initializeSelectors host contexts)) [] [] (List.Sublist.refl [])
    have hmods := allRolledMods_modifiers
      (host.populateRoot (verifyVariables host (initializeSelectors host contexts) formula)
        (initializeSelectors host contexts))
    simp only [List.nil_append] at h
    rw [← hmods] at h
    exact h

/-- C8, on a concrete roll: the registry holds a node bound to `rage` and a
node whose `referenceModifier` is `undefined`; both reach the dialog, and
`rage` is in `rollMods`. -/
theorem dialog_receives_reference_modifiers_witness :
    (prepare
        (sampleHost
          [("str".toList,
            { formula := "1".toList,
              referenceModifier := ReferenceModifier.modifier (sampleMod "rage"),
              calculatedMods := none, isEnabled := true }),
           ("dex".toList,
            { formula := "2".toList, referenceModifier := ReferenceModifier.undefined,
              calculatedMods := none, isEnabled := true })]
          (sampleAnswer JsVal.null JsVal.null none))
        (sampleOptions false none) "1d20".toList emptyContext).allRolledMods
      = [ReferenceModifier.modifier (sampleMod "rage"), ReferenceModifier.undefined] ∧
    List.Sublist [sampleMod "rage"]
      (prepare
        (sampleHost
          [("str".toList,
            { formula := "1".toList,
              referenceModifier := ReferenceModifier.modifier (sampleMod "rage"),
              calculatedMods := none, isEnabled := true }),
           ("dex".toList,
            { formula := "2".toList, referenceModifier := ReferenceModifier.undefined,
              calculatedMods := none, isEnabled := true })]
          (sampleAnswer JsVal.null JsVal.null none))
        (sampleOptions false none) "1d20".toList emptyContext).tree.rollMods :=
  ⟨by decide,
   (dialog_receives_reference_modifiers
      (sampleHost
        [("str".toList,
          { formula := "1".toList,
            referenceModifier := ReferenceModifier.modifier (sampleMod "rage"),
            calculatedMods := none, isEnabled := true }),
         ("dex".toList,
          { formula := "2".toList, referenceModifier := ReferenceModifier.undefined,
            calculatedMods := none, isEnabled := true })]
        (sampleAnswer JsVal.null JsVal.null none))
      (sampleOptions false none) "1d20".toList emptyContext
      (answerSelection (sampleAnswer JsVal.null JsVal.null none)) rfl rfl).2.2⟩

/-- C8, as stated, fails when a calculated modifier is admitted: for a node
with the calculated modifier `rage`, `rollMods` holds `rage` while the list
passed to the dialog is empty. -/
theorem dialog_candidates_counterexample :
    (prepare
        (sampleHost
          [("str".toList,
            { formula := "1".toList, referenceModifier := ReferenceModifier.null,
              calculatedMods := some [{ bonus := sampleMod "rage" }], isEnabled := true })]
          (sampleAnswer JsVal.null JsVal.null none))
        (sampleOptions false none) "1d20".toList emptyContext).tree.rollMods
      = [sampleMod "rage"] ∧
    (prepare
        (sampleHost
          [("str".toList,
            { formula := "1".toList, referenceModifier := ReferenceModifier.null,
              calculatedMods := some [{ bonus := sampleMod "rage" }], isEnabled := true })]
          (sampleAnswer JsVal.null JsVal.null none))
        (sampleOptions false none) "1d20".toList emptyContext).allRolledMods = [] ∧
    (prepare
        (sampleHost
          [("str".toList,
            { formula := "1".toList, referenceModifier := ReferenceModifier.null,
              calculatedMods := some [{ bonus := sampleMod "rage" }], isEnabled := true })]
          (sampleAnswer JsVal.null JsVal.null none))
        (sampleOptions false none) "1d20".toList emptyContext).selection.isSome = true := by
  decide

end Dialog

section Selectors

variable {κ ν : Type}

/-- An iteration with a non-empty target and a non-empty first option reads
the option and writes the target. -/
theorem applySelector_effective (host : Host κ ν) (allContexts updated : κ)
    (selector : Selector) (target first : JsString) (more : List JsVal)
    (htarget : selector.target = JsVal.str target) (htargetne : target ≠ [])
    (hoptions : selector.options = some (JsVal.str first :: more)) (hfirstne : first ≠ [])
    (h : applySelector host allContexts selector = some updated) :
    ∃ value, host.getProperty allContexts first = some value ∧
      host.setProperty allContexts target value = some updated := by
  obtain ⟨a, as, rfl⟩ := List.exists_cons_of_ne_nil htargetne
  obtain ⟨b, bs, rfl⟩ := List.exists_cons_of_ne_nil hfirstne
  simp only [applySelector, htarget, hoptions, List.headD_cons] at h
  cases hget : host.getProperty allContexts (b :: bs) with
  | none => simp [hget] at h
  | some value => exact ⟨value, rfl, by simpa [hget] using h⟩

/-- An iteration leaves every name other than its target as it was, when the
write to its target is an ordinary one. -/
theorem applySelector_other (host : Host κ ν) (allContexts updated : κ)
    (selector : Selector) (key : JsString)
    (hwrite : ∀ t, selector.target = JsVal.str t → OrdinaryWrite host t)
    (hkey : selector.target ≠ JsVal.str key)
    (h : applySelector host allContexts selector = some updated) :
    host.getProperty updated key = host.getProperty allContexts key := by
  unfold applySelector at h
  cases hoptions : selector.options with
  | none => simp [hoptions] at h
  | some options =>
    simp only [hoptions] at h
    generalize options.headD JsVal.undefined = firstValue at h
    have hskip : some allContexts = some updated →
        host.getProperty updated key = host.getProperty allContexts key := by
      intro heq
      rw [Option.some.inj heq]
    cases htarget : selector.target with
    | undefined => rw [htarget] at h; exact hskip h
    | null => rw [htarget] at h; exact hskip h
    | str t =>
      have hne : key ≠ t := fun heq => hkey (by rw [htarget, heq])
      rw [htarget] at h
      cases t with
      | nil => exact hskip h
      | cons a as =>
        cases firstValue with
        | undefined => exact hskip h
        | null => exact hskip h
        | str f =>
          cases f with
          | nil => exact hskip h
          | cons b bs =>
            simp only at h
            cases hget : host.getProperty allContexts (b :: bs) with
            | none => simp [hget] at h
            | some value =>
              simp only [hget] at h
              exact ((hwrite (a :: as) htarget) allContexts updated value h).2 key hne

/-- A loop that ends normally leaves a name that none of its selectors
targets as it was, when the writes are ordinary ones. -/
theorem runSelectors_other (host : Host κ ν) (selectors : List Selector) (allContexts : κ)
    (key : JsString)
    (hwrite : ∀ s ∈ selectors, ∀ t, s.target = JsVal.str t → OrdinaryWrite host t)
    (hkey : ∀ s ∈ selectors, s.target ≠ JsVal.str key)
    (hcomplete : (runSelectors host allContexts selectors).2 = false) :
    host.getProperty (runSelectors host allContexts selectors).1 key
      = host.getProperty allContexts key := by
  induction selectors generalizing allContexts with
  | nil => rfl
  | cons s rest ih =>
    rw [runSelectors] at hcomplete ⊢
    cases hstep : applySelector host allContexts s with
    | none => simp [hstep] at hcomplete
    | some updated =>
      simp only [hstep] at hcomplete ⊢
      rw [ih updated (fun t ht => hwrite t (List.mem_cons_of_mem _ ht))
        (fun t ht => hkey t (List.mem_cons_of_mem _ ht)) hcomplete]
      exact applySelector_other host allContexts updated s key
        (hwrite s (List.mem_cons_self _ _)) (hkey s (List.mem_cons_self _ _)) hstep

/-- The loop over a list in two pieces: the second piece runs on what the
first leaves, unless the first throws. -/
theorem runSelectors_append (host : Host κ ν) (front back : List Selector) (allContexts : κ) :
    runSelectors host allContexts (front ++ back)
      = if (runSelectors host allContexts front).2 then runSelectors host allContexts front
        else runSelectors host (runSelectors host allContexts front).1 back := by
  induction front generalizing allContexts with
  | nil => simp [runSelectors]
  | cons s rest ih =>
    rw [List.cons_append, runSelectors, runSelectors]
    cases applySelector host allContexts s with
    | none => simp
    | some updated => simpa using ih updated

/-- C10 (amended): when the selector loop ends without throwing and the writes
to the targets are ordinary property writes (which a write to `__proto__` is
not), a selector with a non-empty target and a non-empty first option makes
`allContexts[target]` the value `allContexts[options[0]]` had when the selector
was processed, and after the whole loop the two are equal provided no later
selector targets either name.  A selector with an options list whose target is
missing or empty, or whose options list is empty, changes nothing and throws
nothing; options after the first are never consulted; a selector without
`options` makes the iteration throw. -/
theorem selector_aliasing (host : Host κ ν) (contexts : RollContext κ)
    (earlier later : List Selector) (selector : Selector) (target first : JsString)
    (more : List JsVal)
    (hselectors : contexts.selectors = some (earlier ++ selector :: later))
    (htarget : selector.target = JsVal.str target) (htargetne : target ≠ [])
    (hoptions : selector.options = some (JsVal.str first :: more)) (hfirstne : first ≠ [])
    (hcomplete : selectorsThrow host contexts = false)
    (hwrite : ∀ s ∈ selector :: later, ∀ t, s.target = JsVal.str t → OrdinaryWrite host t)
    (hlater : ∀ s ∈ later, s.target ≠ JsVal.str target ∧ s.target ≠ JsVal.str first) :
    (host.getProperty (initializeSelectors host contexts).allContexts target
        = host.getProperty (initializeSelectors host contexts).allContexts first ∧
      host.getProperty (initializeSelectors host contexts).allContexts target
        = host.getProperty (runSelectors host contexts.allContexts earlier).1 first) ∧
    (∀ (allContexts : κ) (s : Selector) (options : List JsVal), s.options = some options →
      s.target.truthy = false ∨ options = [] →
      applySelector host allContexts s = some allContexts) ∧
    (∀ (allContexts : κ) (t option : JsVal) (rest : List JsVal),
      applySelector host allContexts { target := t, options := some (option :: rest) }
        = applySelector host allContexts { target := t, options := some [option] }) ∧
    (∀ (allContexts : κ) (t : JsVal),
      applySelector host allContexts { target := t, options := none } = none) := by
  refine ⟨?_, ?_, ?_, ?_⟩
  · have hrun : (runSelectors host contexts.allContexts (earlier ++ selector :: later)).2
        = false := by simpa [selectorsThrow, hselectors] using hcomplete
    have hpost : (initializeSelectors host contexts).allContexts
        = (runSelectors host contexts.allContexts (earlier ++ selector :: later)).1 := by
      simp [initializeSelectors, hselectors]
    rw [runSelectors_append] at hrun
    rw [hpost, runSelectors_append]
    cases hfront : (runSelectors host contexts.allContexts earlier).2 with
    | true =>
      rw [hfront] at hrun
      simp [hfront] at hrun
    | false =>
      rw [hfront] at hrun
      simp only [Bool.false_eq_true, if_false] at hrun ⊢
      rw [runSelectors] at hrun ⊢
      cases hstep : applySelector host (runSelectors host contexts.allContexts earlier).1
          selector with
      | none => simp [hstep] at hrun
      | some updated =>
        simp only [hstep] at hrun ⊢
        obtain ⟨value, hget, hset⟩ := applySelector_effective host _ updated selector target
          first more htarget htargetne hoptions hfirstne hstep
        obtain ⟨hread, hframe⟩ := (hwrite selector (List.mem_cons_self _ _) target htarget)
          _ updated value hset
        have hlaterw : ∀ s ∈ later, ∀ t, s.target = JsVal.str t → OrdinaryWrite host t :=
          fun s hs => hwrite s (List.mem_cons_of_mem _ hs)
        have h1 := runSelectors_other host later updated target hlaterw
          (fun s hs => (hlater s hs).1) hrun
        have h2 := runSelectors_other host later updated first hlaterw
          (fun s hs => (hlater s hs).2) hrun
        have hfirst : host.getProperty updated first = some value := by
          by_cases heq : first = target
          · rw [heq]; exact hread
          · rw [hframe first heq]; exact hget
        exact ⟨by rw [h1, h2, hread, hfirst], by rw [h1, hread, hget]⟩
  · intro all s options hopt hs
    unfold applySelector
    simp only [hopt]
    rcases hs with hs | hs
    · cases ht : s.target with
      | undefined => rfl
      | null => rfl
      | str t =>
        cases t with
        | nil => rfl
        | cons a as => simp [ht, JsVal.truthy] at hs
    · simp only [hs, List.headD_nil]
      cases s.target with
      | undefined => rfl
      | null => rfl
      | str t => cases t <;> rfl
  · intro all t option rest
    rfl
  · intro all t
    rfl

/-- In the sample host a write to a name other than `__proto__` is an
ordinary property write. -/
theorem sampleHost_ordinaryWrite (extra : Nodes) (answer : DialogResult) (key : JsString)
    (hkey : key ≠ "__proto__".toList) : OrdinaryWrite (sampleHost extra answer) key := by
  intro allContexts updated value h
  simp only [sampleHost, if_neg hkey, Option.some.injEq] at h
  subst h
  refine ⟨by simp [sampleHost], fun other hother => ?_⟩
  simp [sampleHost, hother]

/-- C10, on a concrete context: `focus` is aliased to `attacker`, and a
later selector for `target` does not disturb it. -/
theorem selector_aliasing_witness :
    (sampleHost [] (sampleAnswer JsVal.null JsVal.null none)).getProperty
        (initializeSelectors (sampleHost [] (sampleAnswer JsVal.null JsVal.null none))
          (duelContext [sampleSelector "focus" ["attacker", "defender"],
            sampleSelector "target" ["defender"]])).allContexts
        "focus".toList
      = some (some 1) := by
  have h := (selector_aliasing (sampleHost [] (sampleAnswer JsVal.null JsVal.null none))
    (duelContext [sampleSelector "focus" ["attacker", "defender"],
      sampleSelector "target" ["defender"]])
    [] [sampleSelector "target" ["defender"]]
    (sampleSelector "focus" ["attacker", "defender"])
    "focus".toList "attacker".toList [JsVal.str "defender".toList]
    rfl rfl (by decide) rfl (by decide) (by decide)
    (by
      intro s hs t ht
      apply sampleHost_ordinaryWrite
      simp only [List.mem_cons, List.mem_singleton, List.not_mem_nil, or_false] at hs
      rcases hs with rfl | rfl
      · simp only [sampleSelector, JsVal.str.injEq] at ht
        rw [← ht]
        decide
      · simp only [sampleSelector, JsVal.str.injEq] at ht
        rw [← ht]
        decide)
    (by decide)).1.2
  rw [h]
  decide

/-- C10, as stated, fails when two selectors share a target: the loop ends
normally, and after it `focus` is the context of `defender`, the first option
of the second selector, and no longer equal to `attacker`, the first option of
the first. -/
theorem selector_aliasing_counterexample :
    selectorsThrow (sampleHost [] (sampleAnswer JsVal.null JsVal.null none))
        (duelContext [sampleSelector "focus" ["attacker"],
          sampleSelector "focus" ["defender"]]) = false ∧
    (sampleHost [] (sampleAnswer JsVal.null JsVal.null none)).getProperty
        (initializeSelectors (sampleHost [] (sampleAnswer JsVal.null JsVal.null none))
          (duelContext [sampleSelector "focus" ["attacker"],
            sampleSelector "focus" ["defender"]])).allContexts
        "focus".toList
      = some (some 2) ∧
    (sampleHost [] (sampleAnswer JsVal.null JsVal.null none)).getProperty
        (initializeSelectors (sampleHost [] (sampleAnswer JsVal.null JsVal.null none))
          (duelContext [sampleSelector "focus" ["attacker"],
            sampleSelector "focus" ["defender"]])).allContexts
        "attacker".toList
      = some (some 1) := by
  decide

end Selectors

section Deduplication

variable {κ ν : Type}

/-- A calculated modifier is pushed only under a name not yet present. -/
theorem pushCalculatedMod_nodup (formula : JsString) (acc : List Modifier)
    (mod : CalculatedMod) (h : (modNames acc).Nodup) :
    (modNames (pushCalculatedMod formula acc mod)).Nodup := by
  unfold pushCalculatedMod
  split
  · next hc =>
    have hall := hc.1
    simp only [List.all_eq_true, decide_eq_true_eq] at hall
    simp only [modNames, List.map_append, List.map_cons, List.map_nil]
    rw [List.nodup_append]
    refine ⟨h, List.nodup_singleton _, ?_⟩
    intro n hn hn2
    simp only [List.mem_singleton] at hn2
    subst hn2
    simp only [modNames, List.mem_map] at hn
    obtain ⟨x, hx, hxn⟩ := hn
    exact hall x hx hxn
  · exact h

/-- What `pushCalculatedMod` can add. -/
theorem mem_pushCalculatedMod (formula : JsString) (acc : List Modifier)
    (mod : CalculatedMod) (x : Modifier) (hx : x ∈ pushCalculatedMod formula acc mod) :
    x ∈ acc ∨ x = mod.bonus := by
  unfold pushCalculatedMod at hx
  split at hx
  · simpa using hx
  · exact Or.inl hx

/-- The loop over a node's calculated modifiers keeps the names distinct. -/
theorem foldl_pushCalculatedMod_nodup (formula : JsString) (mods : List CalculatedMod)
    (acc : List Modifier) (h : (modNames acc).Nodup) :
    (modNames (mods.foldl (pushCalculatedMod formula) acc)).Nodup := by
  induction mods generalizing acc with
  | nil => exact h
  | cons mod more ih => exact ih _ (pushCalculatedMod_nodup formula acc mod h)

/-- What the loop over a node's calculated modifiers can add. -/
theorem mem_foldl_pushCalculatedMod (formula : JsString) (mods : List CalculatedMod)
    (acc : List Modifier) (x : Modifier)
    (hx : x ∈ mods.foldl (pushCalculatedMod formula) acc) :
    x ∈ acc ∨ ∃ c ∈ mods, c.bonus = x := by
  induction mods generalizing acc with
  | nil => exact Or.inl hx
  | cons mod more ih =>
    rcases ih _ hx with h | ⟨c, hc, hcx⟩
    · rcases mem_pushCalculatedMod formula acc mod x h with h | h
      · exact Or.inl h
      · exact Or.inr ⟨mod, List.mem_cons_self _ _, h.symm⟩
    · exact Or.inr ⟨c, List.mem_cons_of_mem _ hc, hcx⟩

/-- What one node can add to `rollMods`. -/
theorem mem_collectNode (formula : JsString) (acc : List Modifier)
    (entry : JsString × RollNode) (x : Modifier) (hx : x ∈ collectNode formula acc entry) :
    x ∈ acc ∨ entry.2.referenceModifier.truthy? = some x ∨
      ∃ mods, entry.2.calculatedMods = some mods ∧ ∃ c ∈ mods, c.bonus = x := by
  unfold collectNode at hx
  have hpush : ∀ y, y ∈ (match entry.2.referenceModifier.truthy? with
      | some m => acc ++ [m]
      | none => acc) → y ∈ acc ∨ entry.2.referenceModifier.truthy? = some y := by
    intro y hy
    cases href : entry.2.referenceModifier.truthy? with
    | none => rw [href] at hy; exact Or.inl hy
    | some m =>
      rw [href] at hy
      rcases List.mem_append.1 hy with h | h
      · exact Or.inl h
      · exact Or.inr (by rw [List.mem_singleton.1 h])
  cases hcalc : entry.2.calculatedMods with
  | none =>
    simp only [hcalc] at hx
    rcases hpush x hx with h | h
    · exact Or.inl h
    · exact Or.inr (Or.inl h)
  | some mods =>
    simp only [hcalc] at hx
    rcases mem_foldl_pushCalculatedMod formula mods _ x hx with h | h
    · rcases hpush x h with h | h
      · exact Or.inl h
      · exact Or.inr (Or.inl h)
    · exact Or.inr (Or.inr ⟨mods, rfl, h⟩)

/-- One node keeps the names distinct when its reference modifier is new. -/
theorem collectNode_nodup (formula : JsString) (acc : List Modifier)
    (entry : JsString × RollNode) (h : (modNames acc).Nodup)
    (hnew : ∀ m, entry.2.referenceModifier.truthy? = some m → m.name ∉ modNames acc) :
    (modNames (collectNode formula acc entry)).Nodup := by
  unfold collectNode
  have hpush : (modNames (match entry.2.referenceModifier.truthy? with
      | some m => acc ++ [m]
      | none => acc)).Nodup := by
    cases href : entry.2.referenceModifier.truthy? with
    | none => exact h
    | some m =>
      simp only [modNames, List.map_append, List.map_cons, List.map_nil]
      rw [List.nodup_append]
      refine ⟨h, List.nodup_singleton _, ?_⟩
      intro n hn hn2
      rw [List.mem_singleton.1 hn2] at hn
      exact hnew m href hn
  cases hcalc : entry.2.calculatedMods with
  | none => simpa only [hcalc] using hpush
  | some mods => simpa only [hcalc] using foldl_pushCalculatedMod_nodup formula mods _ hpush

/-- The loop of `populate` keeps the names distinct on a registry whose
reference modifiers are fresh. -/
theorem foldl_collectNode_nodup (formula : JsString) (nodes : Nodes)
    (acc : List Modifier) (h : (modNames acc).Nodup)
    (hfresh : nodes.Pairwise FreshReference)
    (hnew : ∀ entry ∈ nodes, ∀ m, entry.2.referenceModifier.truthy? = some m →
      m.name ∉ modNames acc) :
    (modNames (nodes.foldl (collectNode formula) acc)).Nodup := by
  induction nodes generalizing acc with
  | nil => exact h
  | cons entry rest ih =>
    rw [List.pairwise_cons] at hfresh
    simp only [List.foldl_cons]
    apply ih
    · exact collectNode_nodup formula acc entry h
        (hnew entry (List.mem_cons_self _ _))
    · exact hfresh.2
    · intro later hlater m hm hmem
      simp only [modNames, List.mem_map] at hmem
      obtain ⟨x, hx, hxn⟩ := hmem
      rcases mem_collectNode formula acc entry x hx with hacc | href | ⟨mods, hmods, c, hc, hcx⟩
      · exact hnew later (List.mem_cons_of_mem _ hlater) m hm
          (by simp only [modNames, List.mem_map]; exact ⟨x, hacc, hxn⟩)
      · exact ((hfresh.1 later hlater) m hm).1 x href hxn
      · exact ((hfresh.1 later hlater) m hm).2 mods hmods c hc (by rw [hcx]; exact hxn)

/-- Where `populate` does keep the names apart: `rollMods` holds at most one
entry per modifier name whenever, in the registry, the reference modifier of a
node has a name different from the reference modifier and from the calculated
modifiers of every earlier node.  (A calculated modifier is pushed only under
a name not yet present; a reference modifier is pushed unconditionally.) -/
theorem rollMods_names_nodup (host : Host κ ν) (formula : JsString) (contexts : RollContext κ)
    (hfresh : (host.populateRoot formula contexts).Pairwise FreshReference) :
    ((populate host formula contexts).rollMods.map Modifier.name).Nodup := by
  have h := foldl_collectNode_nodup formula (host.populateRoot formula contexts) []
    List.nodup_nil hfresh (fun _ _ _ _ hmem => by simp [modNames] at hmem)
  simpa [populate, modNames] using h

/-- C2: `populate` does not keep one entry per name.  On the registry that
holds, after the root node, a node `str` with the calculated modifier `rage`
and a node `two` bound to the reference modifier `rage`, line 160 admits the
calculated `rage` and line 156 then pushes the reference modifier `rage`
without the name check of line 160, so `rollMods` has two entries named
`rage`. -/
theorem rollMods_duplicate_name :
    (populate
        (sampleHost
          [("str".toList,
            { formula := "str".toList, referenceModifier := ReferenceModifier.null,
              calculatedMods := some [{ bonus := sampleMod "rage" }], isEnabled := true }),
           ("two".toList,
            { formula := "2".toList,
              referenceModifier := ReferenceModifier.modifier (sampleMod "rage"),
              calculatedMods := none, isEnabled := true })]
          (sampleAnswer JsVal.null JsVal.null none))
        "1d20 + @str".toList emptyContext).rollMods = [sampleMod "rage", sampleMod "rage"] ∧
    ¬ ((populate
        (sampleHost
          [("str".toList,
            { formula := "str".toList, referenceModifier := ReferenceModifier.null,
              calculatedMods := some [{ bonus := sampleMod "rage" }], isEnabled := true }),
           ("two".toList,
            { formula := "2".toList,
              referenceModifier := ReferenceModifier.modifier (sampleMod "rage"),
              calculatedMods := none, isEnabled := true })]
          (sampleAnswer JsVal.null JsVal.null none))
        "1d20 + @str".toList emptyContext).rollMods.map Modifier.name).Nodup := by
  decide

end Deduplication

section Replace

/-- A replacement text without a dollar sign stands for itself. -/
theorem getSubstitution_plain (matched before after : JsString) (rep : JsString)
    (hrep : '$' ∉ rep) : getSubstitution matched before after rep = rep := by
  induction rep using getSubstitution.induct matched before after with
  | case1 => rfl
  | case2 c => rfl
  | case3 c d rest h ih => simp [h.1] at hrep
  | case4 c d rest _ h ih => simp [h.1] at hrep
  | case5 c d rest _ _ h ih => simp [h.1] at hrep
  | case6 c d rest _ _ _ h ih => simp [h.1] at hrep
  | case7 c d rest h1 h2 h3 h4 ih =>
    rw [getSubstitution]
    simp only [h1, h2, h3, h4, if_false]
    rw [ih (fun hmem => hrep (List.mem_cons_of_mem _ hmem))]

/-- Without an occurrence of the pattern, `replace` changes nothing. -/
theorem replaceFrom_absent (pat rep : JsString) (s before : JsString)
    (h : ¬ pat <:+: s) : replaceFrom pat rep before s = before ++ s := by
  induction s generalizing before with
  | nil =>
    have hpat : pat ≠ [] := fun hp => h (hp ▸ List.nil_infix)
    simp [replaceFrom, hpat]
  | cons c cs ih =>
    have h1 : ¬ pat <+: c :: cs := fun hp => h hp.isInfix
    have h2 : ¬ pat <:+: cs := fun hp => h ( List.infix_cons_iff.2 (Or.inr hp))
    simp [replaceFrom, h1, ih _ h2]

/-- With an occurrence of the pattern, `replace` rewrites the first one. -/
theorem replaceFrom_present (pat rep : JsString) (s before : JsString)
    (h : pat <:+: s) :
    ∃ a b, s = a ++ pat ++ b ∧ (∀ a2 b2, s = a2 ++ pat ++ b2 → a.length ≤ a2.length) ∧
      replaceFrom pat rep before s
        = before ++ a ++ getSubstitution pat (before ++ a) b rep ++ b := by
  induction s generalizing before with
  | nil =>
    have hpat : pat = [] := List.eq_nil_of_infix_nil h
    refine ⟨[], [], by simp [hpat], fun _ _ _ => Nat.zero_le _, ?_⟩
    simp [replaceFrom, hpat]
  | cons c cs ih =>
    by_cases hp : pat <+: c :: cs
    · obtain ⟨b, hb⟩ := hp
      refine ⟨[], b, by simp [hb], fun _ _ _ => Nat.zero_le _, ?_⟩
      have hdrop : (c :: cs).drop pat.length = b := by
        rw [← hb]; simp
      rw [replaceFrom, if_pos ⟨b, hb⟩, hdrop]
      simp
    · have hcs : pat <:+: cs := by
        rcases List.infix_cons_iff.1 h with h1 | h1
        · exact absurd h1 hp
        · exact h1
      obtain ⟨a, b, hab, hmin, hrep⟩ := ih (before ++ [c]) hcs
      refine ⟨c :: a, b, by simp [hab], ?_, ?_⟩
      · intro a2 b2 h2
        cases a2 with
        | nil => exact absurd ⟨b2, by simpa using h2.symm⟩ hp
        | cons d a3 =>
          simp only [List.cons_append, List.cons.injEq] at h2
          simpa using hmin a3 b2 (by simpa using h2.2)
      · rw [replaceFrom, if_neg hp, hrep]
        simp

/-- For a replacement text without a dollar sign, `replace` replaces the
first occurrence of the pattern by that text. -/
theorem replace_firstReplaced (pat rep s : JsString) (hrep : '$' ∉ rep) :
    FirstReplaced pat rep s (replace pat rep s) := by
  by_cases h : pat <:+: s
  · obtain ⟨a, b, hab, hmin, hr⟩ := replaceFrom_present pat rep s [] h
    refine Or.inr ⟨a, b, hab, hmin, ?_⟩
    rw [replace, hr, getSubstitution_plain _ _ _ _ hrep]
    simp
  · exact Or.inl ⟨h, by rw [replace, replaceFrom_absent pat rep s [] h]; simp⟩

end Replace

section Occurrences

/-- A string that contains the pattern has at least one occurrence. -/
theorem occurrences_pos (pat x y : JsString) : 1 ≤ occurrences pat (x ++ pat ++ y) := by
  induction x with
  | nil =>
    cases hs : pat ++ y with
    | nil =>
      obtain ⟨hpat, hy⟩ := List.append_eq_nil.1 hs
      simp [occurrences, hpat, hy]
    | cons c cs =>
      have hp : pat <+: c :: cs := ⟨y, hs⟩
      simp [hs, occurrences, hp]
  | cons c x ih =>
    have : occurrences pat (c :: (x ++ pat ++ y))
        = (if pat <+: c :: (x ++ pat ++ y) then 1 else 0) + occurrences pat (x ++ pat ++ y) :=
      rfl
    simp only [List.cons_append, this]
    omega

/-- With at most one occurrence, the pattern splits the string in one way only. -/
theorem split_unique (pat : JsString) (s a1 b1 a2 b2 : JsString)
    (hocc : occurrences pat s ≤ 1) (h1 : s = a1 ++ pat ++ b1) (h2 : s = a2 ++ pat ++ b2) :
    a1 = a2 := by
  induction s generalizing a1 a2 with
  | nil =>
    have e1 := List.append_eq_nil.1 (List.append_eq_nil.1 h1.symm).1
    have e2 := List.append_eq_nil.1 (List.append_eq_nil.1 h2.symm).1
    rw [e1.1, e2.1]
  | cons c cs ih =>
    have hstep : occurrences pat (c :: cs)
        = (if pat <+: c :: cs then 1 else 0) + occurrences pat cs := rfl
    cases a1 with
    | nil =>
      cases a2 with
      | nil => rfl
      | cons d a3 =>
        exfalso
        have hp : pat <+: c :: cs := ⟨b1, by simpa using h1.symm⟩
        simp only [List.cons_append, List.cons.injEq] at h2
        have := occurrences_pos pat a3 b2
        rw [← h2.2] at this
        rw [hstep, if_pos hp] at hocc
        omega
    | cons d a3 =>
      cases a2 with
      | nil =>
        exfalso
        have hp : pat <+: c :: cs := ⟨b2, by simpa using h2.symm⟩
        simp only [List.cons_append, List.cons.injEq] at h1
        have := occurrences_pos pat a3 b1
        rw [← h1.2] at this
        rw [hstep, if_pos hp] at hocc
        omega
      | cons e a4 =>
        simp only [List.cons_append, List.cons.injEq] at h1 h2
        have hcs : occurrences pat cs ≤ 1 := by rw [hstep] at hocc; omega
        rw [← h1.1, ← h2.1, ih a3 a4 hcs h1.2 h2.2]

/-- Replacing the only occurrence of a pattern by a single character that is
not in the pattern leaves no occurrence. -/
theorem firstReplaced_absent (pat s r : JsString) (z : Char) (hpat : pat ≠ [])
    (hz : z ∉ pat) (hocc : occurrences pat s ≤ 1) (hr : FirstReplaced pat [z] s r) :
    ¬ pat <:+: r := by
  rcases hr with ⟨habs, rfl⟩ | ⟨a, b, hs, -, rfl⟩
  · exact habs
  · have hlen : 0 < pat.length := List.length_pos.2 hpat
    rintro ⟨x, y, hxy⟩
    have hxy2 : a ++ ([z] ++ b) = (x ++ pat) ++ y := by simpa using hxy.symm
    rcases List.append_eq_append_iff.1 hxy2 with ⟨a2, h1, h2⟩ | ⟨c2, h1, -⟩
    · cases a2 with
      | nil =>
        have hx : x = a := split_unique pat s x (pat ++ b) a b hocc
          (by rw [hs]; simp only [List.append_nil] at h1; rw [← h1]; simp) hs
        have := congrArg List.length h1
        simp only [List.length_append, hx, List.length_nil] at this
        omega
      | cons z2 a3 =>
        simp only [List.singleton_append, List.cons_append, List.cons.injEq] at h2
        obtain ⟨rfl, hb⟩ := h2
        simp only [List.nil_append] at hb
        rcases List.append_eq_append_iff.1 h1 with ⟨d, hd1, hd2⟩ | ⟨d, hd1, hd2⟩
        · exact hz (by rw [hd2]; simp)
        · cases d with
          | nil =>
            simp only [List.nil_append] at hd2
            exact hz (by rw [← hd2]; exact List.mem_cons_self _ _)
          | cons z3 d2 =>
            simp only [List.cons_append, List.cons.injEq] at hd2
            have hx : a ++ pat ++ d2 = a := split_unique pat s (a ++ pat ++ d2) y a b hocc
              (by rw [hs, hb, hd2.2]; simp) hs
            have := congrArg List.length hx
            simp only [List.length_append] at this
            omega
    · have hx : x = a := split_unique pat s x (c2 ++ pat ++ b) a b hocc
        (by rw [hs, h1]; simp) hs
      have := congrArg List.length h1
      simp only [List.length_append, hx] at this
      omega

end Occurrences

section Materialization

variable {κ ν : Type}

/-- C6 (amended): the result emitted for part `i` is the bonus block applied
to `finalSectionFormula template part`, a function of the template and of part
`i` alone.  When `finalRoll` of the template does not contain the placeholder,
that result is the template unchanged, for a primary and a secondary part
alike.  When it does, a secondary part gives its own formula (`0` when it has
none) as `finalRoll` and as `formula`, and a primary part gives the template
with the first occurrence of the placeholder replaced by the formula of the
part in `finalRoll` and in `formula` (for a part formula without a dollar
sign, which `replace` would expand). -/
theorem section_materialized (host : Host κ ν) (options : Options) (formula : JsString)
    (contexts : RollContext κ) (selection : Selection) (parts : List Part)
    (template : RollResult) (i : Nat)
    (hsel : (prepare host options formula contexts).selection = some selection)
    (hbutton : selection.button ≠ JsVal.null)
    (hparts : selection.enabledParts = some parts)
    (htemplate : resolveTemplate host (prepare host options formula contexts).tree selection
      = template)
    (hi : i < parts.length) :
    (∃ calls part rollMods,
      buildRoll host options formula contexts true = some { returned := true, calls := calls } ∧
      calls[i]? = some (Call.perPart selection.button selection.rollMode
        (appendBonus host selection.bonus (finalSectionFormula template parts[i]))
        part rollMods selection.bonus)) ∧
    (¬ damageSection <:+: template.finalRoll →
      finalSectionFormula template parts[i] = template) ∧
    (damageSection <:+: template.finalRoll → parts[i].isPrimarySection = false →
      finalSectionFormula template parts[i]
        = { finalRoll := parts[i].formula.getD "0".toList
            formula := parts[i].formula.getD "0".toList }) ∧
    (damageSection <:+: template.finalRoll → parts[i].isPrimarySection = true →
      '$' ∉ parts[i].formula.getD "0".toList →
      FirstReplaced damageSection (parts[i].formula.getD "0".toList) template.finalRoll
        (finalSectionFormula template parts[i]).finalRoll ∧
      FirstReplaced damageSection (parts[i].formula.getD "0".toList) template.formula
        (finalSectionFormula template parts[i]).formula) := by
  refine ⟨?_, ?_, ?_, ?_⟩
  · rw [buildRoll_of_selection host options formula contexts true selection hsel hbutton,
      hparts, htemplate]
    cases parts with
    | nil => simp at hi
    | cons part rest =>
      exact ⟨_, _, _, rfl, sectionCalls_get host selection _ template (part :: rest) i hi⟩
  · intro habs
    simp [finalSectionFormula, habs]
  · intro hpres hsec
    simp [finalSectionFormula, hpres, hsec]
  · intro hpres hprim hplain
    simp only [finalSectionFormula, hpres, hprim, if_true]
    exact ⟨replace_firstReplaced _ _ _ hplain, replace_firstReplaced _ _ _ hplain⟩

/-- C6, on a concrete roll: a template with the placeholder, a primary and
a secondary part. -/
theorem section_materialized_witness :
    (buildRoll
        (sampleHost []
          (sampleAnswer (JsVal.str "roll".toList) JsVal.null
            (some [samplePart "1d6" true true true, samplePart "1d4" true false true])))
        (sampleOptions false none) "<damageSection> + 2".toList emptyContext true).map
      (fun outcome => outcome.calls.map fun call =>
        match call with
        | Call.perPart _ _ result _ _ _ => some result
        | _ => none)
      = some [some { finalRoll := "1d6 + 2".toList, formula := "1d6 + 2".toList },
          some { finalRoll := "1d4".toList, formula := "1d4".toList }] ∧
    FirstReplaced damageSection "1d6".toList "<damageSection> + 2".toList
      (finalSectionFormula
        { finalRoll := "<damageSection> + 2".toList, formula := "<damageSection> + 2".toList }
        (samplePart "1d6" true true true)).finalRoll :=
  ⟨by decide,
   ((section_materialized
      (sampleHost []
        (sampleAnswer (JsVal.str "roll".toList) JsVal.null
          (some [samplePart "1d6" true true true, samplePart "1d4" true false true])))
      (sampleOptions false none) "<damageSection> + 2".toList emptyContext
      (answerSelection
        (sampleAnswer (JsVal.str "roll".toList) JsVal.null
          (some [samplePart "1d6" true true true, samplePart "1d4" true false true])))
      [samplePart "1d6" true true true, samplePart "1d4" true false true]
      { finalRoll := "<damageSection> + 2".toList, formula := "<damageSection> + 2".toList }
      0 rfl (by decide) rfl rfl (by decide)).2.2.2 (by decide) rfl (by decide)).1⟩

/-- C6, as stated, fails for a secondary part when the template has no
placeholder: the result emitted for the part `1d4` is the template `1d20`,
not the formula of the part. -/
theorem section_materialized_counterexample :
    buildRoll
        (sampleHost []
          (sampleAnswer (JsVal.str "roll".toList) JsVal.null
            (some [samplePart "1d4" true false true])))
        (sampleOptions false none) "1d20".toList emptyContext true
      = some { returned := true
               calls := [Call.perPart (JsVal.str "roll".toList) "publicroll".toList
                 { finalRoll := "1d20".toList, formula := "1d20".toList }
                 (samplePart "1d4" true false true) [] JsVal.null] } := by
  decide

/-- C7 (amended): with a callback, a button other than `null`, no enabled
part and no bonus, the callback is invoked exactly once, with the template in
which the first occurrence of the placeholder is replaced by `0` in `finalRoll`
and in `formula`, provided `finalRoll` contains the placeholder, and with the
template unchanged otherwise.  When `finalRoll` and `formula` hold the
placeholder at most once each, and `formula` only if `finalRoll` does, neither
field of the emitted result contains the placeholder. -/
theorem single_result_emitted (host : Host κ ν) (options : Options) (formula : JsString)
    (contexts : RollContext κ) (selection : Selection) (template : RollResult)
    (hsel : (prepare host options formula contexts).selection = some selection)
    (hbutton : selection.button ≠ JsVal.null)
    (hparts : selection.enabledParts = none ∨ selection.enabledParts = some [])
    (hbonus : selection.bonus.truthy = false)
    (htemplate : resolveTemplate host (prepare host options formula contexts).tree selection
      = template) :
    ∃ result rollMods,
      buildRoll host options formula contexts true
        = some { returned := true
                 calls := [Call.single selection.button selection.rollMode result rollMods
                   selection.bonus] } ∧
      (¬ damageSection <:+: template.finalRoll → result = template) ∧
      (damageSection <:+: template.finalRoll →
        FirstReplaced damageSection "0".toList template.finalRoll result.finalRoll ∧
        FirstReplaced damageSection "0".toList template.formula result.formula) ∧
      (occurrences damageSection template.finalRoll ≤ 1 →
        occurrences damageSection template.formula ≤ 1 →
        (damageSection <:+: template.formula → damageSection <:+: template.finalRoll) →
        ¬ damageSection <:+: result.finalRoll ∧ ¬ damageSection <:+: result.formula) := by
  have hplain : '$' ∉ "0".toList := by decide
  have hnobonus : ∀ r : RollResult, appendBonus host selection.bonus r = r := by
    intro r
    cases hb : selection.bonus with
    | undefined => rfl
    | null => rfl
    | str s =>
      cases s with
      | nil => rfl
      | cons c cs => simp [hb, JsVal.truthy] at hbonus
  have hcalls : buildRoll host options formula contexts true
      = some { returned := true
               calls := [Call.single selection.button selection.rollMode
                 (leftoverSection template)
                 (finalRollMods (prepare host options formula contexts).tree selection)
                 selection.bonus] } := by
    rw [buildRoll_of_selection host options formula contexts true selection hsel hbutton,
      htemplate]
    rcases hparts with hp | hp <;> simp [hp, singleCalls, hnobonus]
  have hfirst : damageSection <:+: template.finalRoll →
      FirstReplaced damageSection "0".toList template.finalRoll
          (leftoverSection template).finalRoll ∧
        FirstReplaced damageSection "0".toList template.formula
          (leftoverSection template).formula := by
    intro hpres
    simp only [leftoverSection, hpres, if_true]
    exact ⟨replace_firstReplaced _ _ _ hplain, replace_firstReplaced _ _ _ hplain⟩
  refine ⟨leftoverSection template, _, hcalls, ?_, hfirst, ?_⟩
  · intro habs
    simp [leftoverSection, habs]
  · intro hroll hformula himp
    by_cases hpres : damageSection <:+: template.finalRoll
    · exact ⟨firstReplaced_absent damageSection _ _ '0' (by decide) (by decide) hroll
          (hfirst hpres).1,
        firstReplaced_absent damageSection _ _ '0' (by decide) (by decide) hformula
          (hfirst hpres).2⟩
    · have hsame : leftoverSection template = template := by simp [leftoverSection, hpres]
      rw [hsame]
      exact ⟨hpres, fun h => hpres (himp h)⟩

/-- C7, on a concrete roll: the leftover placeholder of the formula
`1d20 + <damageSection>` becomes `0`. -/
theorem single_result_emitted_witness :
    buildRoll (sampleHost [] (sampleAnswer (JsVal.str "roll".toList) JsVal.null none))
        (sampleOptions false none) "1d20 + <damageSection>".toList emptyContext true
      = some { returned := true
               calls := [Call.single (JsVal.str "roll".toList) "publicroll".toList
                 { finalRoll := "1d20 + 0".toList, formula := "1d20 + 0".toList } []
                 JsVal.null] } ∧
    ∃ result rollMods,
      buildRoll (sampleHost [] (sampleAnswer (JsVal.str "roll".toList) JsVal.null none))
          (sampleOptions false none) "1d20 + <damageSection>".toList emptyContext true
        = some { returned := true
                 calls := [Call.single (JsVal.str "roll".toList) "publicroll".toList result
                   rollMods JsVal.null] } ∧
      ¬ damageSection <:+: result.finalRoll ∧ ¬ damageSection <:+: result.formula := by
  refine ⟨by decide, ?_⟩
  obtain ⟨result, rollMods, hrun, -, -, hnone⟩ := single_result_emitted
    (sampleHost [] (sampleAnswer (JsVal.str "roll".toList) JsVal.null none))
    (sampleOptions false none) "1d20 + <damageSection>".toList emptyContext
    (answerSelection (sampleAnswer (JsVal.str "roll".toList) JsVal.null none))
    { finalRoll := "1d20 + <damageSection>".toList
      formula := "1d20 + <damageSection>".toList }
    rfl (by decide) (Or.inl rfl) rfl rfl
  exact ⟨result, rollMods, hrun, hnone (by decide) (by decide) (fun h => h)⟩

/-- C7, as stated, fails for a template with two placeholders: only the
first becomes `0`, and the emitted result still contains the placeholder. -/
theorem single_result_counterexample :
    buildRoll (sampleHost [] (sampleAnswer (JsVal.str "roll".toList) JsVal.null none))
        (sampleOptions false none) "<damageSection> + <damageSection>".toList emptyContext
        true
      = some { returned := true
               calls := [Call.single (JsVal.str "roll".toList) "publicroll".toList
                 { finalRoll := "0 + <damageSection>".toList
                   formula := "0 + <damageSection>".toList } []
                 JsVal.null] } ∧
    damageSection <:+: "0 + <damageSection>".toList := by
  decide

end Materialization

section Variables

/-- Every match of the variable pattern is an `@` followed by one or more
class characters. -/
theorem matchVariablesFrom_shape (skip : Nat) (s : JsString) (v : JsString)
    (hv : v ∈ matchVariablesFrom skip s) :
    ∃ X, v = '@' :: X ∧ X ≠ [] ∧ ∀ c ∈ X, isVarChar c = true := by
  induction s generalizing skip with
  | nil => simp [matchVariablesFrom] at hv
  | cons c cs ih =>
    cases skip with
    | succ k => exact ih k (by simpa [matchVariablesFrom] using hv)
    | zero =>
      rw [matchVariablesFrom] at hv
      split at hv
      · next hc =>
        rcases List.mem_cons.1 hv with h | h
        · exact ⟨cs.takeWhile isVarChar, h, hc.2, fun d hd => List.mem_takeWhile_imp hd⟩
        · exact ih _ h
      · exact ih _ hv

/-- The set built from a list has the elements of the list. -/
theorem mem_setOf (l : List JsString) (v : JsString) : v ∈ setOf l ↔ v ∈ l := by
  induction l with
  | nil => simp [setOf]
  | cons x xs ih =>
    by_cases h : v = x
    · simp [setOf, h]
    · simp [setOf, h, List.mem_filter, ih]

/-- A class character is not `@`. -/
theorem ne_at_of_isVarChar (c : Char) (h : isVarChar c = true) : c ≠ '@' := by
  rintro rfl
  exact absurd h (by decide)

/-- A run of class characters at the head of a string is part of its
longest such run. -/
theorem prefix_takeWhile (X cs : JsString) (hX : ∀ c ∈ X, isVarChar c = true)
    (h : X <+: cs) : X <+: cs.takeWhile isVarChar := by
  induction X generalizing cs with
  | nil => exact List.nil_prefix
  | cons x xs ih =>
    obtain ⟨t, rfl⟩ := h
    have hx : isVarChar x = true := hX x (List.mem_cons_self _ _)
    have := ih (xs ++ t) (fun c hc => hX c (List.mem_cons_of_mem _ hc)) ⟨t, rfl⟩
    simpa [List.takeWhile_cons, hx] using this

/-- An occurrence of a variable sits at an `@` whose run starts with the
class characters of the variable. -/
theorem run_of_infix (X s : JsString) (hX : ∀ c ∈ X, isVarChar c = true)
    (h : ('@' :: X) <:+: s) : ∃ r ∈ runs s, X <+: r := by
  induction s with
  | nil => simp at h
  | cons c cs ih =>
    rcases List.infix_cons_iff.1 h with hp | hi
    · obtain ⟨t, ht⟩ := hp
      simp only [List.cons_append, List.cons.injEq] at ht
      obtain ⟨rfl, rfl⟩ := ht
      exact ⟨(X ++ t).takeWhile isVarChar, by simp [runs],
        prefix_takeWhile X (X ++ t) hX ⟨t, rfl⟩⟩
    · obtain ⟨r, hr, hXr⟩ := ih hi
      refine ⟨r, ?_, hXr⟩
      rw [runs]
      split
      · exact List.mem_cons_of_mem _ hr
      · exact hr

end Variables

section ReplaceAll

/-- Skipping `k` covered characters is scanning the rest of the string. -/
theorem replaceAllFrom_skip (pat rep : JsString) (hpat : pat ≠ []) (k : Nat) (s : JsString) :
    replaceAllFrom pat rep k s = replaceAllFrom pat rep 0 (s.drop k) := by
  induction s generalizing k with
  | nil =>
    cases k with
    | zero => rfl
    | succ k => simp [replaceAllFrom, hpat]
  | cons c cs ih =>
    cases k with
    | zero => rfl
    | succ k => simpa [replaceAllFrom] using ih k

/-- At a character other than `@` no variable starts. -/
theorem replaceAll_cons_other (X rep : JsString) (c : Char) (cs : JsString) (hc : c ≠ '@') :
    replaceAll ('@' :: X) rep (c :: cs) = c :: replaceAll ('@' :: X) rep cs := by
  have hp : ¬ ('@' :: X) <+: c :: cs := by
    rintro ⟨t, ht⟩
    simp only [List.cons_append, List.cons.injEq] at ht
    exact hc ht.1.symm
  simp [replaceAll, replaceAllFrom, hp]

/-- At an `@` followed by the variable's characters the variable is replaced. -/
theorem replaceAll_cons_match (X rep : JsString) (cs : JsString) (h : X <+: cs) :
    replaceAll ('@' :: X) rep ('@' :: cs)
      = rep ++ replaceAll ('@' :: X) rep (cs.drop X.length) := by
  have hp : ('@' :: X) <+: '@' :: cs := by
    obtain ⟨t, rfl⟩ := h
    exact ⟨t, rfl⟩
  simp only [replaceAll]
  rw [replaceAllFrom]
  simp only [if_neg (List.cons_ne_nil _ _), if_pos hp]
  rw [replaceAllFrom_skip _ _ (List.cons_ne_nil _ _)]
  simp

/-- At an `@` not followed by the variable's characters nothing is replaced. -/
theorem replaceAll_cons_miss (X rep : JsString) (cs : JsString) (h : ¬ X <+: cs) :
    replaceAll ('@' :: X) rep ('@' :: cs) = '@' :: replaceAll ('@' :: X) rep cs := by
  have hp : ¬ ('@' :: X) <+: '@' :: cs := by
    rintro ⟨t, ht⟩
    simp only [List.cons_append, List.cons.injEq, true_and] at ht
    exact h ⟨t, ht⟩
  simp [replaceAll, replaceAllFrom, hp]

/-- A stretch without `@` is copied. -/
theorem replaceAll_append_other (X rep : JsString) (u v : JsString)
    (hu : ∀ c ∈ u, c ≠ '@') :
    replaceAll ('@' :: X) rep (u ++ v) = u ++ replaceAll ('@' :: X) rep v := by
  induction u with
  | nil => rfl
  | cons c u ih =>
    rw [List.cons_append, replaceAll_cons_other X rep c _ (hu c (List.mem_cons_self _ _)),
      ih (fun d hd => hu d (List.mem_cons_of_mem _ hd))]
    rfl

/-- A stretch without `@` has no runs. -/
theorem runs_append_other (u v : JsString) (hu : ∀ c ∈ u, c ≠ '@') :
    runs (u ++ v) = runs v := by
  induction u with
  | nil => rfl
  | cons c u ih =>
    rw [List.cons_append, runs, if_neg (hu c (List.mem_cons_self _ _)),
      ih (fun d hd => hu d (List.mem_cons_of_mem _ hd))]

/-- Outside a variable, a stretch without `@` keeps the variables separated. -/
theorem variablesSeparated_append_other (u v : JsString) (hu : ∀ c ∈ u, c ≠ '@') :
    variablesSeparated false (u ++ v) = variablesSeparated false v := by
  induction u with
  | nil => rfl
  | cons c u ih =>
    rw [List.cons_append, variablesSeparated, if_neg (hu c (List.mem_cons_self _ _)),
      Bool.false_and, ih (fun d hd => hu d (List.mem_cons_of_mem _ hd))]

/-- Inside a variable, class characters stay inside it. -/
theorem variablesSeparated_append_run (u v : JsString) (hu : ∀ c ∈ u, isVarChar c = true) :
    variablesSeparated true (u ++ v) = variablesSeparated true v := by
  induction u with
  | nil => rfl
  | cons c u ih =>
    have hc := hu c (List.mem_cons_self _ _)
    rw [List.cons_append, variablesSeparated, if_neg (ne_at_of_isVarChar c hc), hc,
      Bool.true_and, ih (fun d hd => hu d (List.mem_cons_of_mem _ hd))]

/-- After the end of a variable it makes no difference whether the scan was
inside it. -/
theorem variablesSeparated_of_endsRun (y : JsString) (hy : EndsRun y) :
    variablesSeparated true y = variablesSeparated false y := by
  cases y with
  | nil => rfl
  | cons d y =>
    obtain ⟨h1, h2⟩ := hy d (by simp)
    rw [variablesSeparated, variablesSeparated, if_neg h1, if_neg h1, h2]
    rfl

/-- The longest run of class characters of `r ++ y` is `r` when `y` ends it. -/
theorem takeWhile_append_endsRun (r y : JsString) (hr : ∀ c ∈ r, isVarChar c = true)
    (hy : EndsRun y) : (r ++ y).takeWhile isVarChar = r := by
  induction r with
  | nil =>
    cases y with
    | nil => rfl
    | cons d y =>
      obtain ⟨-, h2⟩ := hy d (by simp)
      simp [List.takeWhile_cons, h2]
  | cons c r ih =>
    have hc := hr c (List.mem_cons_self _ _)
    simp [List.takeWhile_cons, hc, ih (fun d hd => hr d (List.mem_cons_of_mem _ hd))]

/-- Replacing a variable keeps the end of a variable where it was. -/
theorem endsRun_replaceAll (X rep : JsString) (y : JsString) (hy : EndsRun y) :
    EndsRun (replaceAll ('@' :: X) rep y) := by
  cases y with
  | nil => simp [replaceAll, replaceAllFrom, EndsRun]
  | cons d y =>
    obtain ⟨h1, h2⟩ := hy d (by simp)
    rw [replaceAll_cons_other X rep d y h1]
    intro e he
    simp only [List.head?_cons, Option.mem_def, Option.some.injEq] at he
    subst he
    exact ⟨h1, h2⟩

end ReplaceAll

section Sanitization

variable {κ ν : Type}

/-- What follows the longest run of class characters is not a class character. -/
theorem head_dropWhile_isVarChar (cs : JsString) :
    ∀ d ∈ (cs.dropWhile isVarChar).head?, isVarChar d = false := by
  induction cs with
  | nil => simp
  | cons c cs ih =>
    by_cases hc : isVarChar c = true
    · simpa [List.dropWhile_cons, hc] using ih
    · simp [List.dropWhile_cons, hc]

/-- In a string with separated variables, what follows the run of an `@`
ends that run, and the variables after it are separated too. -/
theorem separated_after_run (cs : JsString) (h : variablesSeparated true cs = true) :
    EndsRun (cs.dropWhile isVarChar) ∧
      variablesSeparated false (cs.dropWhile isVarChar) = true := by
  have hsplit : variablesSeparated true (cs.takeWhile isVarChar ++ cs.dropWhile isVarChar)
      = true := by rw [List.takeWhile_append_dropWhile]; exact h
  rw [variablesSeparated_append_run _ _ (fun c hc => List.mem_takeWhile_imp hc)] at hsplit
  have hends : EndsRun (cs.dropWhile isVarChar) := by
    intro d hd
    refine ⟨?_, head_dropWhile_isVarChar cs d hd⟩
    rintro rfl
    cases hrest : cs.dropWhile isVarChar with
    | nil => simp [hrest] at hd
    | cons e rest =>
      simp only [hrest, List.head?_cons, Option.mem_def, Option.some.injEq] at hd
      subst hd
      rw [hrest] at hsplit
      simp [variablesSeparated] at hsplit
  exact ⟨hends, by rw [← variablesSeparated_of_endsRun _ hends]; exact hsplit⟩

/-- Replacing a variable in a string with separated variables: the variables
stay separated, no new run appears, and no remaining run starts with the
characters of the replaced variable. -/
theorem replaceAll_variable (X : JsString) (hX : ∀ c ∈ X, isVarChar c = true) (n : Nat) :
    ∀ s : JsString, s.length ≤ n → variablesSeparated false s = true →
      variablesSeparated false (replaceAll ('@' :: X) "0".toList s) = true ∧
      ∀ r ∈ runs (replaceAll ('@' :: X) "0".toList s), r ∈ runs s ∧ ¬ X <+: r := by
  induction n with
  | zero =>
    intro s hlen _
    have hs : s = [] := List.length_eq_zero.1 (Nat.le_zero.1 hlen)
    subst hs
    simp [replaceAll, replaceAllFrom, runs, variablesSeparated]
  | succ n ih =>
    intro s hlen hsep
    cases s with
    | nil => simp [replaceAll, replaceAllFrom, runs, variablesSeparated]
    | cons c cs =>
      have hcs : cs.length ≤ n := by simpa using hlen
      by_cases hc : c = '@'
      · subst hc
        have hsep2 : variablesSeparated true cs = true := by
          simpa [variablesSeparated] using hsep
        obtain ⟨hends, hrest⟩ := separated_after_run cs hsep2
        have hrun : ∀ c ∈ cs.takeWhile isVarChar, isVarChar c = true :=
          fun c hc => List.mem_takeWhile_imp hc
        have hrunat : ∀ c ∈ cs.takeWhile isVarChar, c ≠ '@' :=
          fun c hc => ne_at_of_isVarChar c (hrun c hc)
        have hrestlen : (cs.dropWhile isVarChar).length ≤ n :=
          le_trans (List.dropWhile_suffix _).length_le hcs
        obtain ⟨ih1, ih2⟩ := ih (cs.dropWhile isVarChar) hrestlen hrest
        have hruns : runs ('@' :: cs)
            = cs.takeWhile isVarChar :: runs (cs.dropWhile isVarChar) := by
          rw [runs, if_pos rfl]
          conv_lhs => rw [← List.takeWhile_append_dropWhile isVarChar cs]
          rw [runs_append_other _ _ hrunat, List.takeWhile_append_dropWhile]
        by_cases hm : X <+: cs
        · have hmr : X <+: cs.takeWhile isVarChar := prefix_takeWhile X cs hX hm
          have hdrop : cs.drop X.length
              = (cs.takeWhile isVarChar).drop X.length ++ cs.dropWhile isVarChar := by
            conv_lhs => rw [← List.takeWhile_append_dropWhile isVarChar cs]
            exact List.drop_append_of_le_length hmr.length_le
          have hu : ∀ c ∈ "0".toList ++ (cs.takeWhile isVarChar).drop X.length, c ≠ '@' := by
            intro c hc
            rcases List.mem_append.1 hc with h | h
            · simp only [String.toList, List.mem_singleton] at h
              subst h
              decide
            · exact hrunat c (List.mem_of_mem_drop h)
          have hR : replaceAll ('@' :: X) "0".toList ('@' :: cs)
              = ("0".toList ++ (cs.takeWhile isVarChar).drop X.length)
                ++ replaceAll ('@' :: X) "0".toList (cs.dropWhile isVarChar) := by
            rw [replaceAll_cons_match X _ cs hm, hdrop,
              replaceAll_append_other X _ _ _
                (fun c hc => hrunat c (List.mem_of_mem_drop hc)),
              List.append_assoc]
          rw [hR, variablesSeparated_append_other _ _ hu, runs_append_other _ _ hu, hruns]
          exact ⟨ih1, fun r hr => ⟨List.mem_cons_of_mem _ (ih2 r hr).1, (ih2 r hr).2⟩⟩
        · have hmr : ¬ X <+: cs.takeWhile isVarChar :=
            fun h => hm (h.trans (List.takeWhile_prefix _))
          have hends2 := endsRun_replaceAll X "0".toList _ hends
          have hR : replaceAll ('@' :: X) "0".toList ('@' :: cs)
              = '@' :: (cs.takeWhile isVarChar
                ++ replaceAll ('@' :: X) "0".toList (cs.dropWhile isVarChar)) := by
            rw [replaceAll_cons_miss X _ cs hm]
            conv_lhs => rw [← List.takeWhile_append_dropWhile isVarChar cs]
            rw [replaceAll_append_other X _ _ _ hrunat]
          rw [hR, hruns]
          refine ⟨?_, ?_⟩
          · rw [variablesSeparated, if_pos rfl, variablesSeparated_append_run _ _ hrun,
              variablesSeparated_of_endsRun _ hends2, ih1]
            rfl
          · intro r hr
            rw [runs, if_pos rfl, takeWhile_append_endsRun _ _ hrun hends2,
              runs_append_other _ _ hrunat] at hr
            rcases List.mem_cons.1 hr with h | h
            · subst h
              exact ⟨List.mem_cons_self _ _, hmr⟩
            · exact ⟨List.mem_cons_of_mem _ (ih2 r h).1, (ih2 r h).2⟩
      · have hsep2 : variablesSeparated false cs = true := by
          simpa [variablesSeparated, hc] using hsep
        obtain ⟨ih1, ih2⟩ := ih cs hcs hsep2
        rw [replaceAll_cons_other X _ c cs hc]
        refine ⟨?_, ?_⟩
        · simpa [variablesSeparated, hc] using ih1
        · intro r hr
          rw [runs, if_neg hc] at hr ⊢
          exact ih2 r hr

end Sanitization

section Verification

variable {κ ν : Type}

/-- The loop over the variables, on a string with separated variables: the
variables stay separated, no new run appears, and no remaining run starts with
the characters of a variable that was replaced. -/
theorem foldl_replace_variables (resolves : JsString → Bool) (vars : List JsString)
    (hvars : ∀ v ∈ vars, ∃ X, v = '@' :: X ∧ X ≠ [] ∧ ∀ c ∈ X, isVarChar c = true)
    (f : JsString) (hsep : variablesSeparated false f = true) :
    variablesSeparated false
        (vars.foldl (fun f v => if resolves v then f else replaceAll v "0".toList f) f)
      = true ∧
    (∀ r ∈ runs
        (vars.foldl (fun f v => if resolves v then f else replaceAll v "0".toList f) f),
      r ∈ runs f) ∧
    ∀ X, '@' :: X ∈ vars → resolves ('@' :: X) = false →
      ∀ r ∈ runs
          (vars.foldl (fun f v => if resolves v then f else replaceAll v "0".toList f) f),
        ¬ X <+: r := by
  induction vars generalizing f with
  | nil => exact ⟨hsep, fun _ h => h, fun _ h => absurd h (List.not_mem_nil _)⟩
  | cons v rest ih =>
    have hrest : ∀ w ∈ rest, ∃ X, w = '@' :: X ∧ X ≠ [] ∧ ∀ c ∈ X, isVarChar c = true :=
      fun w hw => hvars w (List.mem_cons_of_mem _ hw)
    simp only [List.foldl_cons]
    by_cases hres : resolves v = true
    · simp only [hres, if_true]
      obtain ⟨h1, h2, h3⟩ := ih hrest f hsep
      refine ⟨h1, h2, fun X hX hun r hr => ?_⟩
      rcases List.mem_cons.1 hX with h | h
      · rw [h, hres] at hun
        exact absurd hun (by decide)
      · exact h3 X h hun r hr
    · simp only [hres]
      obtain ⟨Y, rfl, -, hY⟩ := hvars v (List.mem_cons_self _ _)
      obtain ⟨s1, s2⟩ := replaceAll_variable Y hY f.length f (le_refl _) hsep
      obtain ⟨h1, h2, h3⟩ := ih hrest (replaceAll ('@' :: Y) "0".toList f) s1
      refine ⟨h1, fun r hr => (s2 r (h2 r hr)).1, fun X hX hun r hr => ?_⟩
      rcases List.mem_cons.1 hX with h | h
      · simp only [List.cons.injEq, true_and] at h
        subst h
        exact (s2 r (h2 r hr)).2
      · exact h3 X h hun r hr

/-- C1 (amended): in a formula whose variables are separated (no `@` comes
right after a variable or after another `@`), every match of the variable
pattern that `getContextForVariable` fails to resolve is absent from the
formula handed to `populate`. -/
theorem unresolved_variable_removed (host : Host κ ν) (options : Options) (formula : JsString)
    (contexts : RollContext κ) (v : JsString)
    (hsep : variablesSeparated false formula = true)
    (hv : v ∈ matchVariablesFrom 0 formula)
    (hun : host.getContextForVariable v (initializeSelectors host contexts) = false) :
    ¬ v <:+: (prepare host options formula contexts).formula ∧
    (prepare host options formula contexts).tree
      = populate host (prepare host options formula contexts).formula
          (prepare host options formula contexts).contexts := by
  refine ⟨?_, rfl⟩
  obtain ⟨X, rfl, -, hX⟩ := matchVariablesFrom_shape 0 formula v hv
  have hshape : ∀ w ∈ variableMatches formula,
      ∃ Y, w = '@' :: Y ∧ Y ≠ [] ∧ ∀ c ∈ Y, isVarChar c = true :=
    fun w hw => matchVariablesFrom_shape 0 formula w ((mem_setOf _ w).1 hw)
  obtain ⟨-, -, h3⟩ := foldl_replace_variables
    (fun w => host.getContextForVariable w (initializeSelectors host contexts))
    (variableMatches formula) hshape formula hsep
  intro hin
  obtain ⟨r, hr, hXr⟩ := run_of_infix X _ hX hin
  exact h3 X ((mem_setOf _ _).2 hv) hun r hr hXr

/-- C1, on concrete formulas: `1d20 + @missing.value` reaches `populate` as
`1d20 + 0`, and every occurrence of a repeated variable is replaced. -/
theorem unresolved_variable_removed_witness :
    (prepare (sampleHost [] (sampleAnswer JsVal.null JsVal.null none))
        (sampleOptions true none) "1d20 + @missing.value".toList emptyContext).formula
      = "1d20 + 0".toList ∧
    (prepare (sampleHost [] (sampleAnswer JsVal.null JsVal.null none))
        (sampleOptions true none) "@a + 2*@a - @b".toList emptyContext).formula
      = "0 + 2*0 - 0".toList ∧
    ¬ "@missing.value".toList <:+:
      (prepare (sampleHost [] (sampleAnswer JsVal.null JsVal.null none))
        (sampleOptions true none) "1d20 + @missing.value".toList emptyContext).formula :=
  ⟨by decide, by decide,
   (unresolved_variable_removed (sampleHost [] (sampleAnswer JsVal.null JsVal.null none))
      (sampleOptions true none) "1d20 + @missing.value".toList emptyContext
      "@missing.value".toList (by decide) (by decide) rfl).1⟩

/-- C1, as stated, fails when an `@` comes right before a variable that
starts with `0`: in `1d20 + @@0` the pattern matches `@0`, nothing resolves it,
and replacing it by `0` gives `1d20 + @0`, which contains `@0` again. -/
theorem unresolved_variable_counterexample :
    "@0".toList ∈ matchVariablesFrom 0 "1d20 + @@0".toList ∧
    (sampleHost [] (sampleAnswer JsVal.null JsVal.null none)).getContextForVariable
      "@0".toList
      (initializeSelectors (sampleHost [] (sampleAnswer JsVal.null JsVal.null none))
        emptyContext) = false ∧
    (prepare (sampleHost [] (sampleAnswer JsVal.null JsVal.null none))
        (sampleOptions true none) "1d20 + @@0".toList emptyContext).formula
      = "1d20 + @0".toList ∧
    "@0".toList <:+: "1d20 + @0".toList := by
  decide

end Verification

end RollTree
